import Mathlib

/-!
# iss_sgp4_json: time scales and the TEME -> BLH pipeline

A shallow embedding of `time.cpp`, `eop.cpp` and `blh.cpp`.

Conventions of the embedding:

* a C++ `double` is an exact number: a rational (`ℚ`) in the time module, whose
  functions stay executable, and a real (`ℝ`) in the frame module, where `sin`, `cos`,
  `sqrt` and `atan2` are the real functions;
* `ts_add` is the exception: its result is counted in single nanoseconds, so there the
  argument is a binary64 number and every `double` operation before the conversion to
  `long` is rounded to binary64 (`binary64`: to nearest, ties to even); the constant
  `kTtTai` that `tai2tt` passes to it is the binary64 value of the literal `32.184`;
* `time_t` and `long` (`tv_sec`, `tv_nsec`) are unbounded integers (signed overflow is
  undefined in C++), `unsigned int` values are naturals and every conversion to
  `unsigned int` is taken modulo `2^32`;
* converting a `double` to an integer type discards the fractional part (C++ leaves the
  conversion undefined when the value does not fit the type; such inputs are outside
  the embedding);
* `localtime_r` is a parameter of the functions that call it, and so is `std::stod`;
* a `std::string` is a list of characters, a text file is the list of its lines
  together with whether its last line ends with a newline, and a function that throws
  returns `none`.
-/

namespace IssSgp4Json

/-! ## time.cpp -/

/-- Conversion of a `double` to an integer type, as done by `int(x)`,
`static_cast<int>(x)` and by assigning a `double` to a `long`: truncation toward zero. -/
def truncToInt (q : ℚ) : Int := if 0 ≤ q then ⌊q⌋ else ⌈q⌉

/-- Conversion of an integer to `unsigned int` (32 bits). -/
def toUInt32 (z : Int) : Nat := (z % 4294967296).toNat

/-- Rounding of a rational to the nearest integer, a tie going to the even one. -/
def roundHalfEven (q : ℚ) : Int :=
  let f : Int := ⌊q⌋
  if q - (f : ℚ) < 1 / 2 then f
  else if 1 / 2 < q - (f : ℚ) then f + 1
  else if f % 2 = 0 then f else f + 1

/-- The value a `double` operation stores for the exact result `q`: the binary64 number
nearest to `q`, a tie going to the even significand (the default rounding mode). The
significand has 53 bits, so in the binade `2^e <= |q| < 2^(e+1)` the results are the
multiples of `2^(e-52)`; below `2^-1022` they are the multiples of `2^-1074`. Overflow
to infinity (`|q| >= 2^1024`) is outside the embedding. -/
def binary64 (q : ℚ) : ℚ :=
  if q = 0 then 0
  else
    let e : Int := max (Int.log 2 |q|) (-1022)
    (roundHalfEven (q * (2 : ℚ) ^ (52 - e)) : ℚ) * (2 : ℚ) ^ (e - 52)

/-- The constant `kE9 = 1.0e9`. -/
def kE9 : ℚ := 1000000000

/-- The constant `kTtTai = 32.184` (TT - TAI): the `double` that the literal denotes. -/
def kTtTai : ℚ := binary64 32.184

/-- The constant `kJ2k`: Julian Day of 2000-01-01 12:00:00. -/
def kJ2k : Nat := 2451545

/-- The constant `kDayJc`: days per Julian century. -/
def kDayJc : Nat := 36525

/-- The C `struct timespec`. -/
structure Timespec where
  tv_sec : Int
  tv_nsec : Int
deriving DecidableEq, Repr

/-- The fields of the C `struct tm` that the program reads. -/
structure Tm where
  tm_year : Int
  tm_mon : Int
  tm_mday : Int
  tm_hour : Int
  tm_min : Int
  tm_sec : Int
deriving DecidableEq, Repr

/-- The `DateTime` structure of `time.hpp`. -/
structure DateTime where
  year : Nat
  month : Nat
  day : Nat
  hour : Nat
  minute : Nat
  second : ℚ
deriving DecidableEq, Repr

/-- First loop of `ts_add`:
`while (ts.tv_nsec > kE9) { ++ts.tv_sec; ts.tv_nsec -= kE9; }`.
The comparison and the subtraction are done in `double`, the difference is stored
back into the `long`. Both operands are integers, and so is the difference: the
`double` operations of the two loops are exact for every `tv_nsec` below `2^53` in
absolute value, so no rounding is written here. -/
def ts_add_carry (sec nsec : Int) : Int × Int :=
  if kE9 < (nsec : ℚ) then
    ts_add_carry (sec + 1) (truncToInt ((nsec : ℚ) - kE9))
  else (sec, nsec)
termination_by nsec.toNat
decreasing_by
  rename_i h
  have h1 : (1000000000 : Int) < nsec := by
    have : ((1000000000 : Int) : ℚ) < (nsec : ℚ) := by simpa [kE9] using h
    exact_mod_cast this
  have h2 : (nsec : ℚ) - kE9 = ((nsec - 1000000000 : Int) : ℚ) := by
    simp [kE9]
  rw [h2]
  unfold truncToInt
  split <;> simp <;> omega

/-- Second loop of `ts_add`:
`while (ts.tv_nsec < 0) { --ts.tv_sec; ts.tv_nsec += kE9; }`. -/
def ts_add_borrow (sec nsec : Int) : Int × Int :=
  if nsec < 0 then
    ts_add_borrow (sec - 1) (truncToInt ((nsec : ℚ) + kE9))
  else (sec, nsec)
termination_by (-nsec).toNat
decreasing_by
  rename_i h
  have h2 : (nsec : ℚ) + kE9 = ((nsec + 1000000000 : Int) : ℚ) := by
    simp [kE9]
  rw [h2]
  unfold truncToInt
  split <;> simp <;> omega

/-- The function `ts_add` of `time.cpp`: time plus a number of seconds `s`, a `double`
(`binary64 s = s`). In
`ts.tv_nsec = ts_src.tv_nsec + (s - int(s)) * kE9;`
the subtraction, the product and the sum are `double` operations, each rounded to
binary64; `ts_src.tv_nsec` is converted to `double` for the sum, and the sum is
converted to `long` by truncation. -/
def ts_add (ts_src : Timespec) (s : ℚ) : Timespec :=
  let sec : Int := ts_src.tv_sec + truncToInt s
  let nsec : Int := truncToInt (binary64 (binary64 (ts_src.tv_nsec : ℚ)
    + binary64 (binary64 (s - (truncToInt s : ℚ)) * kE9)))
  let c := ts_add_carry sec nsec
  let b := ts_add_borrow c.1 c.2
  { tv_sec := b.1, tv_nsec := b.2 }

/-- The function `jday` of `time.cpp`: calendar fields to Julian Date. -/
def jday (dt : DateTime) : ℚ :=
  367 * (dt.year : ℚ)
    - (truncToInt (7 * ((toUInt32 ((dt.year : Int)
          + truncToInt (((dt.month : ℚ) + 9) / 12)) : ℕ) : ℚ) * 0.25) : ℚ)
    + (truncToInt (275 * (dt.month : ℚ) / 9) : ℚ) + (dt.day : ℚ) + 1721013.5
    + (((dt.second / 60 + (dt.minute : ℚ)) / 60 + (dt.hour : ℚ)) / 24)

/-- The body of `gc2jd` after the call of `localtime_r`: broken-down time and
nanoseconds to Julian Date. -/
def gc2jd_tm (t : Tm) (tv_nsec : Int) : ℚ :=
  let year0 : Nat := toUInt32 (t.tm_year + 1900)
  let month0 : Nat := toUInt32 (t.tm_mon + 1)
  let day : Nat := toUInt32 t.tm_mday
  let hour : Nat := toUInt32 t.tm_hour
  let min : Nat := toUInt32 t.tm_min
  let sec : Nat := toUInt32 t.tm_sec
  let year : Nat := if month0 < 3 then toUInt32 ((year0 : Int) - 1) else year0
  let month : Nat := if month0 < 3 then toUInt32 ((month0 : Int) + 12) else month0
  let jd : ℚ :=
    ((toUInt32 (truncToInt (365.25 * (year : ℚ))
        + truncToInt ((year : ℚ) / 400)
        - truncToInt ((year : ℚ) / 100)
        + truncToInt (30.59 * ((toUInt32 ((month : Int) - 2) : ℕ) : ℚ))
        + (day : Int)) : ℕ) : ℚ)
      + 1721088.5
  let jd : ℚ := jd + ((sec : ℚ) / 3600 + (min : ℚ) / 60 + (hour : ℚ)) / 24
  jd + (tv_nsec : ℚ) / 1000000000 / 3600 / 24

/-- The function `gc2jd` of `time.cpp`; `localtime_r` is the C library call that
breaks `tv_sec` down into calendar fields. -/
def gc2jd (localtime_r : Int → Tm) (ts : Timespec) : ℚ :=
  gc2jd_tm (localtime_r ts.tv_sec) ts.tv_nsec

/-- The function `jd2jcn` of `time.cpp`: Julian Day to Julian Century Number. -/
def jd2jcn (jd : ℚ) : ℚ := (jd - (kJ2k : ℚ)) / (kDayJc : ℚ)

/-- The function `tai2tt` of `time.cpp`. -/
def tai2tt (tai : Timespec) : Timespec := ts_add tai kTtTai

/-- The integer part of the day count of `gc2jd`, without the day of the month, for the
year `y` and the month `m` that `gc2jd` uses after moving January and February to
months 13 and 14 of the year before: the four `static_cast<int>` terms, written with
integer division. Used to state the closed form of `gc2jd`. -/
def gcDays (y m : Nat) : Nat :=
  1461 * y / 4 + y / 400 - y / 100 + 3059 * (m - 2) / 100

/-- Number of iterations of the first loop of `ts_add`, started with `tv_nsec = nsec`:
the guard and the update of `ts_add_carry`, counting one for every pass. -/
def ts_add_carry_iters (nsec : Int) : Nat :=
  if kE9 < (nsec : ℚ) then
    ts_add_carry_iters (truncToInt ((nsec : ℚ) - kE9)) + 1
  else 0
termination_by nsec.toNat
decreasing_by
  rename_i h
  have h1 : (1000000000 : Int) < nsec := by
    have : ((1000000000 : Int) : ℚ) < (nsec : ℚ) := by simpa [kE9] using h
    exact_mod_cast this
  have h2 : (nsec : ℚ) - kE9 = ((nsec - 1000000000 : Int) : ℚ) := by
    simp [kE9]
  rw [h2]
  unfold truncToInt
  split <;> simp <;> omega

/-- Number of iterations of the second loop of `ts_add`, started with
`tv_nsec = nsec`. -/
def ts_add_borrow_iters (nsec : Int) : Nat :=
  if nsec < 0 then
    ts_add_borrow_iters (truncToInt ((nsec : ℚ) + kE9)) + 1
  else 0
termination_by (-nsec).toNat
decreasing_by
  rename_i h
  have h2 : (nsec : ℚ) + kE9 = ((nsec + 1000000000 : Int) : ℚ) := by
    simp [kE9]
  rw [h2]
  unfold truncToInt
  split <;> simp <;> omega

/-- The value of `tv_nsec` in `ts_add` before the two loops: the same expression as in
`ts_add`. -/
def ts_add_nsec0 (ts_src : Timespec) (s : ℚ) : Int :=
  truncToInt (binary64 (binary64 (ts_src.tv_nsec : ℚ)
    + binary64 (binary64 (s - (truncToInt s : ℚ)) * kE9)))

/-- Number of loop iterations of one call of `ts_add`: those of the first loop, and those
of the second loop started with the `tv_nsec` the first loop leaves. -/
def ts_add_iters (ts_src : Timespec) (s : ℚ) : Nat :=
  let sec : Int := ts_src.tv_sec + truncToInt s
  let nsec : Int := ts_add_nsec0 ts_src s
  ts_add_carry_iters nsec + ts_add_borrow_iters (ts_add_carry sec nsec).2

/-- The table `lmonth` of `days2ymdhms` after
`if (year % 4 == 0) { lmonth[1] = 29; }`. -/
def lmonth (year : Nat) : List Nat :=
  [31, if year % 4 = 0 then 29 else 28, 31, 30, 31, 30, 31, 31, 30, 31, 30, 31]

/-- The search loop of `days2ymdhms`:
`while (dayofyr > inttemp + lmonth[i] && i < 12) { inttemp += lmonth[i]; ++i; }`.
The left operand of `&&` is evaluated first, so `lmonth[i]` is read before `i < 12` is
tested; a read outside the table is undefined in C++ and gives `none` here. The result
is the pair `(i, inttemp)` at the exit of the loop. The sums stay far below `2^32`. -/
def days2ymdhms_loop (lmonth : List Nat) (dayofyr i inttemp : Nat) : Option (Nat × Nat) :=
  match lmonth[i]? with
  | none => none
  | some l =>
    if dayofyr > inttemp + l ∧ i < 12 then
      days2ymdhms_loop lmonth dayofyr (i + 1) (inttemp + l)
    else some (i, inttemp)
termination_by 12 - i

/-- The function `days2ymdhms` of `time.cpp`: year and day of the year to calendar
fields; `none` when the table is read outside its bounds. -/
def days2ymdhms (year : Nat) (days : ℚ) : Option DateTime :=
  let dayofyr : Nat := toUInt32 (truncToInt days)
  match days2ymdhms_loop (lmonth year) dayofyr 0 0 with
  | none => none
  | some (i, inttemp) =>
    let temp : ℚ := (days - (dayofyr : ℚ)) * 24
    let hour : Nat := toUInt32 (truncToInt temp)
    let temp : ℚ := (temp - (hour : ℚ)) * 60
    let minute : Nat := toUInt32 (truncToInt temp)
    some { year := year
           month := toUInt32 ((i : Int) + 1)
           day := toUInt32 ((dayofyr : Int) - (inttemp : Int))
           hour := hour
           minute := minute
           second := (temp - (minute : ℚ)) * 60 }

/-! ## Strings, files and the table lookups of time.cpp and eop.cpp

A `std::string` is a list of characters. A function that throws, or that ends the
program, returns `none`. -/

/-- The constant `kEm6 = 1.0e-6`. -/
def kEm6 : ℚ := 1.0e-6

/-- The C library function `round`: nearest integer, halves away from zero. -/
def roundHalfAway (q : ℚ) : Int := if 0 ≤ q then ⌊q + 1 / 2⌋ else ⌈q - 1 / 2⌉

/-- The member `std::string::substr(pos, len)`: the characters from position `pos` on,
at most `len` of them; it throws `std::out_of_range` when `pos` is beyond the size. -/
def substr (s : List Char) (pos len : Nat) : Option (List Char) :=
  if pos ≤ s.length then some ((s.drop pos).take len) else none

/-- The comparison `operator<` of `std::string`: lexicographic order of the
characters, a proper prefix being smaller. -/
def strLt : List Char → List Char → Bool
  | [], [] => false
  | [], _ :: _ => true
  | _ :: _, [] => false
  | a :: as, b :: bs => if a < b then true else if b < a then false else strLt as bs

/-- Output of an integer to a stream after `std::setfill('0')` and `std::setw(w)`: the
decimal digits, after the sign if there is one, padded on the left with `'0'` to `w`
characters. -/
def putInt (w : Nat) (n : Int) : List Char :=
  List.leftpad w '0' (toString n).toList

/-- The function `gen_time_str` of `time.cpp`. The last field is the `double`
`round(ts.tv_nsec * kEm6)`, which the stream writes with its digits only when its
absolute value is an integer below `10^6`. -/
def gen_time_str (localtime_r : Int → Tm) (ts : Timespec) : List Char :=
  let t := localtime_r ts.tv_sec
  putInt 4 (t.tm_year + 1900) ++ ['-']
    ++ putInt 2 (t.tm_mon + 1) ++ ['-']
    ++ putInt 2 t.tm_mday ++ [' ']
    ++ putInt 2 t.tm_hour ++ [':']
    ++ putInt 2 t.tm_min ++ [':']
    ++ putInt 2 t.tm_sec ++ ['.']
    ++ putInt 3 (roundHalfAway ((ts.tv_nsec : ℚ) * kEm6))

/-- The C library function `isspace` in the "C" locale. -/
def isspace (c : Char) : Bool :=
  c = ' ' || c = Char.ofNat 9 || c = Char.ofNat 10 || c = Char.ofNat 11
    || c = Char.ofNat 12 || c = Char.ofNat 13

/-- The function `std::stoi(str)`: leading white space is skipped, then an optional sign
and the longest run of decimal digits are read, the rest is ignored. It throws
`std::invalid_argument` when there is no digit and `std::out_of_range` when the value
does not fit an `int`. -/
def stoi (str : List Char) : Option Int :=
  let s := str.dropWhile isspace
  let neg : Bool := s.head? = some '-'
  let s := if s.head? = some '-' ∨ s.head? = some '+' then s.tail else s
  let ds := s.takeWhile Char.isDigit
  if ds = [] then none
  else
    let v : Nat := ds.foldl (fun acc c => 10 * acc + (c.toNat - 48)) 0
    let z : Int := if neg then -(v : Int) else (v : Int)
    if -2147483648 ≤ z ∧ z ≤ 2147483647 then some z else none

/-- A text file: its lines, without the newline characters, and whether the last line
ends with a newline. -/
structure TextFile where
  lines : List (List Char)
  final_newline : Bool

/-- The state of a `std::ifstream` that was opened on a file: the lines not read yet,
whether the last line of the file ends with a newline, and whether the stream is
`good()` (neither `eofbit` nor `failbit` is set). -/
structure IfStream where
  lines : List (List Char)
  final_newline : Bool
  good : Bool

/-- A stream just opened on a file. -/
def IfStream.ofFile (f : TextFile) : IfStream :=
  { lines := f.lines, final_newline := f.final_newline, good := true }

/-- The function `std::getline(ifs, str)`: whether a line was read, the stream
afterwards, and `str` afterwards. When the stream is not `good()` the call fails and
leaves `str` as it is. Otherwise `str` is erased first; with nothing left to read the
call fails; reading a last line that has no newline reaches the end of the file and
sets `eofbit`, so the stream is no longer `good()`. -/
def getline (ifs : IfStream) (str : List Char) : Bool × IfStream × List Char :=
  if ifs.good then
    match ifs.lines with
    | [] => (false, { ifs with good := false }, [])
    | [l] => (true, { ifs with lines := [], good := ifs.final_newline }, l)
    | l :: rest => (true, { ifs with lines := rest }, l)
  else (false, ifs, str)

/-- The loop of `get_eop` and of `get_dut1`:
`while (getline(ifs, eop)) { if (eop.substr(0, 10) == str_utc) { break; } }`.
The result is `eop` after the loop. -/
def find_eop_line (str_utc : List Char) (ifs : IfStream) (eop : List Char) :
    Option (List Char) :=
  match h : getline ifs eop with
  | (false, _, eop1) => some eop1
  | (true, ifs1, eop1) =>
    match substr eop1 0 10 with
    | none => none
    | some key => if key = str_utc then some eop1 else find_eop_line str_utc ifs1 eop1
termination_by ifs.lines.length
decreasing_by
  all_goals
    unfold getline at h
    split at h
    · split at h
      · simp at h
      · rename_i heq
        simp only [Prod.mk.injEq, true_and] at h
        rw [← h.1, heq]
        simp
      · rename_i heq
        simp only [Prod.mk.injEq, true_and] at h
        rw [← h.1, heq]
        simp
    · simp at h

/-- The date string `str_wk` that `get_dat` builds from a line of the table:
year from columns 20-23, month from columns 17-18, day from columns 14-15. -/
def get_dat_str_wk (buf : List Char) : Option (List Char) := do
  let y ← (substr buf 20 4).bind stoi
  let m ← (substr buf 17 2).bind stoi
  let d ← (substr buf 14 2).bind stoi
  some (putInt 4 y ++ ['-'] ++ putInt 2 m ++ ['-'] ++ putInt 2 d)

/-- The loop of `get_dat`: comment lines are skipped, the loop stops at the first line
whose date is above `str_utc`, and `ls` is the last line before it. The result is
`ls` after the loop. -/
def get_dat_loop (str_utc : List Char) (ifs : IfStream) (buf ls : List Char) :
    Option (List Char) :=
  match h : getline ifs buf with
  | (false, _, _) => some ls
  | (true, ifs1, buf1) =>
    match substr buf1 0 1 with
    | none => none
    | some c =>
      if c = ['#'] then get_dat_loop str_utc ifs1 buf1 ls
      else
        match get_dat_str_wk buf1 with
        | none => none
        | some str_wk =>
          if strLt str_utc str_wk then some ls
          else get_dat_loop str_utc ifs1 buf1 buf1
termination_by ifs.lines.length
decreasing_by
  all_goals
    unfold getline at h
    split at h
    · split at h
      · simp at h
      · rename_i heq
        simp only [Prod.mk.injEq, true_and] at h
        rw [← h.1, heq]
        simp
      · rename_i heq
        simp only [Prod.mk.injEq, true_and] at h
        rw [← h.1, heq]
        simp
    · simp at h

/-- The function `get_dat` of `time.cpp`: DAT = TAI - UTC from the table of leap
seconds. `file` is the content of `Leap_Second.dat`, `none` when the file cannot be
opened. -/
def get_dat (localtime_r : Int → Tm) (file : Option TextFile) (ts : Timespec) :
    Option Nat := do
  let str_utc := gen_time_str localtime_r ts
  let f ← file
  let ls ← get_dat_loop str_utc (IfStream.ofFile f) [] []
  let v ← (substr ls 31 2).bind stoi
  some (toUInt32 v)

/-- The function `get_dut1` of `time.cpp`: DUT1 from the table of Earth orientation
parameters. `stod` is the library function `std::stod`, `none` where it throws; `file`
is the content of `eop.txt`, `none` when the file cannot be opened. -/
def get_dut1 (localtime_r : Int → Tm) (stod : List Char → Option ℚ)
    (file : Option TextFile) (ts : Timespec) : Option ℚ := do
  let str_utc ← substr (gen_time_str localtime_r ts) 0 10
  let f ← file
  let eop ← find_eop_line str_utc (IfStream.ofFile f) []
  (substr eop 62 10).bind stod

/-- The data members of the class `Eop` of `eop.hpp`. -/
structure Eop where
  eop : List Char
  pm_x : ℚ
  pm_y : ℚ
  dut1 : ℚ
  lod : ℚ

namespace Eop

/-- The method `Eop::get_eop`: the line of the table for the date of `utc`. -/
def get_eop (localtime_r : Int → Tm) (file : Option TextFile) (utc : Timespec) :
    Option (List Char) := do
  let str_utc ← substr (gen_time_str localtime_r utc) 0 10
  let f ← file
  find_eop_line str_utc (IfStream.ofFile f) []

/-- The constructor `Eop::Eop`. -/
def ctor (localtime_r : Int → Tm) (stod : List Char → Option ℚ)
    (file : Option TextFile) (utc : Timespec) : Option Eop := do
  let eop ← get_eop localtime_r file utc
  let pm_x ← (substr eop 22 9).bind stod
  let pm_y ← (substr eop 41 9).bind stod
  let dut1 ← (substr eop 62 10).bind stod
  let lod_str ← substr eop 83 7
  let lod ← if lod_str ≠ List.replicate 7 ' ' then stod lod_str else some 0
  some { eop := eop, pm_x := pm_x, pm_y := pm_y, dut1 := dut1, lod := lod }

end Eop

/-- A record of the table of Earth orientation parameters for 2021-06-09, with the
fields in the columns that `Eop` reads (22-30, 41-49, 62-71, 83-89). Sample data for
the lookups. -/
def sampleEopRecord : List Char :=
  "2021-06-09 59374.00    0.123456           0.456789            -0.1234567           0.00015".toList

/-- Whether `get_dat` takes a line of the table as an entry: the line does not begin
with `#`. -/
def get_dat_is_entry (buf : List Char) : Bool := substr buf 0 1 != some ['#']

/-- Whether the date of an entry of the table is not after the date `d`, in the order
`get_dat` uses, the order of the strings `YYYY-MM-DD`. -/
def get_dat_not_after (d : List Char) (buf : List Char) : Bool :=
  match get_dat_str_wk buf with
  | some k => !strLt d k
  | none => false

/-- Whether the date of the entry `a` is not after the date of the entry `b`. -/
def get_dat_date_le (a b : List Char) : Bool :=
  match get_dat_str_wk b with
  | some kb => get_dat_not_after kb a
  | none => false

/-! ## blh.cpp -/

/-- Modelled from the spec: the structure `Coord` is declared in `sgp4.hpp`, which is
not part of the sources at hand; the spec describes it as an (x, y, z) triple of
doubles. -/
structure Coord where
  x : ℝ
  y : ℝ
  z : ℝ

/-- Modelled from the spec: the structure `PvTeme` is declared in `sgp4.hpp`, which is
not part of the sources at hand; the spec describes the inertial state vector as a
position triple and a velocity triple, read by `teme2blh` as `teme.r` and `teme.v`. -/
structure PvTeme where
  r : Coord
  v : Coord

/-- The structure `CoordBlh` of `blh.hpp`: latitude, longitude, height. -/
structure CoordBlh where
  b : ℝ
  l : ℝ
  h : ℝ

/-- The structure `PvBlh` of `blh.hpp`: position and scalar speed. -/
structure PvBlh where
  r : CoordBlh
  v : ℝ

/-- The data members of the class `Blh`. -/
structure Blh where
  pm_x : ℝ
  pm_y : ℝ
  lod : ℝ
  jd_ut1 : ℝ
  jcn_tt : ℝ

/-- The constant `kPi = atan(1.0) * 4.0`. -/
noncomputable def kPi : ℝ := Real.arctan 1 * 4

/-- The constant `kPi2 = kPi * 2.0`. -/
noncomputable def kPi2 : ℝ := kPi * 2

/-- The constant `kPi180 = kPi / 180.0`. -/
noncomputable def kPi180 : ℝ := kPi / 180

/-- The constant `kSecD`: seconds per day. -/
def kSecD : ℚ := 86400

/-- The constant `kA`: semi-major axis of the WGS84 ellipsoid. -/
def kA : ℚ := 6378137

/-- The constant `k1F`: inverse flattening of the WGS84 ellipsoid. -/
def k1F : ℚ := 298.257223563

/-- The constant `kB = kA * (1.0 - 1.0 / k1F)`: semi-minor axis. -/
def kB : ℚ := kA * (1 - 1 / k1F)

/-- The constant `kE2 = (1.0 / k1F) * (2.0 - (1.0 / k1F))`. -/
def kE2 : ℚ := (1 / k1F) * (2 - (1 / k1F))

/-- The constant `kEd2 = kE2 * kA * kA / (kB * kB)`. -/
def kEd2 : ℚ := kE2 * kA * kA / (kB * kB)

/-- Discarding the fractional part of a real number. -/
noncomputable def truncReal (x : ℝ) : Int := if 0 ≤ x then ⌊x⌋ else ⌈x⌉

/-- The C library function `fmod(x, y)`: `x - n * y`, where `n` is the quotient `x / y`
with its fractional part discarded; the result has the sign of `x`. -/
noncomputable def fmod (x y : ℝ) : ℝ := x - (truncReal (x / y) : ℝ) * y

/-- The C library function `atan2(y, x)`: the angle in `(-π, π]` of the point `(x, y)`,
with `atan2(0, 0) = 0`. -/
noncomputable def atan2 (y x : ℝ) : ℝ := Complex.arg ⟨x, y⟩

/-- The loop `while (v < 0.0) { v += p; }` for a positive step `p`. -/
noncomputable def whileNegAdd (p : ℝ) (hp : 0 < p) (v : ℝ) : ℝ :=
  if v < 0 then whileNegAdd p hp (v + p) else v
termination_by ⌈-v / p⌉.toNat
decreasing_by
  rename_i h
  have h1 : -(v + p) / p = -v / p - 1 := by field_simp; ring
  have h2 : 0 < -v / p := div_pos (by linarith) hp
  have h3 : 0 < ⌈-v / p⌉ := Int.ceil_pos.mpr h2
  rw [h1, Int.ceil_sub_one]
  omega

/-- The loop `while (v > p) { v -= p; }` for a positive step `p`. -/
noncomputable def whileGtSub (p : ℝ) (hp : 0 < p) (v : ℝ) : ℝ :=
  if v > p then whileGtSub p hp (v - p) else v
termination_by ⌈v / p⌉.toNat
decreasing_by
  rename_i h
  have h1 : (v - p) / p = v / p - 1 := by field_simp
  have h2 : 1 < v / p := (one_lt_div hp).mpr h
  have h3 : 0 < ⌈v / p⌉ := Int.ceil_pos.mpr (by linarith)
  rw [h1, Int.ceil_sub_one]
  omega

namespace Blh

/-- The constructor `Blh::Blh`; `localtime_r` is the C library call used by `gc2jd`. -/
noncomputable def ctor (localtime_r : Int → Tm) (ut1 tai : Timespec)
    (pm_x pm_y lod : ℝ) : Blh :=
  let tt := tai2tt tai
  let jd_tt := gc2jd localtime_r tt
  { pm_x := pm_x
    pm_y := pm_y
    lod := lod
    jd_ut1 := ((gc2jd localtime_r ut1 : ℚ) : ℝ)
    jcn_tt := ((jd2jcn jd_tt : ℚ) : ℝ) }

/-- The method `Blh::calc_gmst`: Greenwich mean sidereal time (IAU 1982). -/
noncomputable def calc_gmst (o : Blh) : ℝ :=
  let t_ut1 : ℝ := (o.jd_ut1 - (kJ2k : ℝ)) / (kDayJc : ℝ)
  let gmst : ℝ := 67310.54841 + (876600 * 3600 + 8640184.812866
    + (0.093104 - 6.2e-6 * t_ut1) * t_ut1) * t_ut1
  let gmst : ℝ := fmod (gmst * kPi180 / 240) kPi2
  let gmst : ℝ := whileNegAdd kPi2
    (by unfold kPi2 kPi; rw [Real.arctan_one]; positivity) gmst
  whileGtSub kPi2 (by unfold kPi2 kPi; rw [Real.arctan_one]; positivity) gmst

/-- The method `Blh::calc_om`: mean longitude of the ascending node of the Moon
(IAU 1980 nutation theory), in radians. -/
noncomputable def calc_om (o : Blh) : ℝ :=
  let om : ℝ := 125.04452222 + ((-6962890.5390 + (7.455 + 0.008
    * o.jcn_tt) * o.jcn_tt) * o.jcn_tt) / 3600
  let om : ℝ := fmod om 360
  let om : ℝ := whileNegAdd 360 (by norm_num) om
  let om : ℝ := whileGtSub 360 (by norm_num) om
  om * kPi180

/-- The method `Blh::apply_kinematic`: the kinematic terms applied to GMST. -/
noncomputable def apply_kinematic (o : Blh) (gmst om : ℝ) : ℝ :=
  let gmst_g : ℝ :=
    if o.jd_ut1 > 2450449.5 then
      gmst
        + 0.00264 * kPi / (3600 * 180) * Real.sin om
        + 0.000063 * kPi / (3600 * 180) * Real.sin (om * 2)
    else gmst
  fmod gmst_g kPi2

/-- The method `Blh::gen_mtx_rz`: rotation of the axes about z. The matrix starts as
the zero matrix and five entries are assigned. The object is not read. -/
noncomputable def gen_mtx_rz (ang : ℝ) : Matrix (Fin 3) (Fin 3) ℝ :=
  let c := Real.cos ang
  let s := Real.sin ang
  !![c, s, 0; -s, c, 0; 0, 0, 1]

/-- The method `Blh::gen_mtx_rpm`: polar motion rotation matrix. -/
noncomputable def gen_mtx_rpm (o : Blh) : Matrix (Fin 3) (Fin 3) ℝ :=
  let pm_x_r : ℝ := o.pm_x * kPi / (180 * 60 * 60 * 1000)
  let pm_y_r : ℝ := o.pm_y * kPi / (180 * 60 * 60 * 1000)
  let conv : ℝ := kPi / (3600 * 180)
  let c_xp := Real.cos pm_x_r
  let s_xp := Real.sin pm_x_r
  let c_yp := Real.cos pm_y_r
  let s_yp := Real.sin pm_y_r
  let sp : ℝ := -47.0e-6 * o.jcn_tt * conv
  let s_sp := Real.sin sp
  let c_sp := Real.cos sp
  !![c_xp * c_sp, c_xp * s_sp, s_xp;
     -c_yp * s_sp + s_yp * s_xp * c_sp, c_yp * c_sp + s_yp * s_xp * s_sp, -s_yp * c_xp;
     -s_yp * s_sp - c_yp * s_xp * c_sp, s_yp * c_sp - c_yp * s_xp * s_sp, c_yp * c_xp]

/-- The method `Blh::apply_mtx`: a 3x3 matrix applied to a coordinate triple. The
object is not read. -/
def apply_mtx (mtx_r : Matrix (Fin 3) (Fin 3) ℝ) (cd_src : Coord) : Coord :=
  { x := mtx_r 0 0 * cd_src.x + mtx_r 0 1 * cd_src.y + mtx_r 0 2 * cd_src.z
    y := mtx_r 1 0 * cd_src.x + mtx_r 1 1 * cd_src.y + mtx_r 1 2 * cd_src.z
    z := mtx_r 2 0 * cd_src.x + mtx_r 2 1 * cd_src.y + mtx_r 2 2 * cd_src.z }

/-- The method `Blh::calc_om_e`: angular velocity of the Earth. -/
noncomputable def calc_om_e (o : Blh) : Coord :=
  { x := 0, y := 0, z := 7.29211514670698e-05 * (1 - o.lod / ((kSecD : ℚ) : ℝ)) }

/-- The method `Blh::v_cross`: cross product. The object is not read. -/
def v_cross (cd_a cd_b : Coord) : Coord :=
  { x := cd_a.y * cd_b.z - cd_a.z * cd_b.y
    y := cd_a.z * cd_b.x - cd_a.x * cd_b.z
    z := cd_a.x * cd_b.y - cd_a.y * cd_b.x }

/-- The method `Blh::n`: the function N of the ECEF -> BLH conversion, of a latitude
in degrees. The object is not read. -/
noncomputable def n (x : ℝ) : ℝ :=
  ((kA : ℚ) : ℝ) / Real.sqrt (1 - ((kE2 : ℚ) : ℝ) * Real.sin (x * kPi180) ^ 2)

/-- The method `Blh::ecef2blh`: ECEF coordinates (km) to latitude and longitude
(degrees) and height (m). The object is not read. -/
noncomputable def ecef2blh (ecef : Coord) : CoordBlh :=
  let x : ℝ := ecef.x * 1.0e3
  let y : ℝ := ecef.y * 1.0e3
  let z : ℝ := ecef.z * 1.0e3
  let p : ℝ := Real.sqrt (x * x + y * y)
  let theta : ℝ := atan2 (z * ((kA : ℚ) : ℝ)) (p * ((kB : ℚ) : ℝ)) / kPi180
  let b : ℝ := atan2
    (z + ((kEd2 : ℚ) : ℝ) * ((kB : ℚ) : ℝ) * Real.sin (theta * kPi180) ^ 3)
    (p - ((kE2 : ℚ) : ℝ) * ((kA : ℚ) : ℝ) * Real.cos (theta * kPi180) ^ 3) / kPi180
  let l : ℝ := atan2 y x / kPi180
  let h : ℝ := p / Real.cos (b * kPi180) - n b
  { b := b, l := l, h := h }

/-- The method `Blh::teme2blh`: TEME position and velocity to BLH position and
speed. -/
noncomputable def teme2blh (o : Blh) (teme : PvTeme) : PvBlh :=
  let gmst := o.calc_gmst
  let om := o.calc_om
  let gmst_g := o.apply_kinematic gmst om
  let mtx_z := gen_mtx_rz gmst_g
  let mtx_pm := o.gen_mtx_rpm
  let r_pef := apply_mtx mtx_z teme.r
  let r_ecef := apply_mtx mtx_pm r_pef
  let _om_e := o.calc_om_e
  let blh_wk := ecef2blh r_ecef
  { r := { b := blh_wk.b, l := blh_wk.l, h := blh_wk.h / 1000.0 }
    v := Real.sqrt (teme.v.x * teme.v.x + teme.v.y * teme.v.y + teme.v.z * teme.v.z) }

end Blh

/-- The quantity that `calc_gmst` reduces modulo `2*pi`, written as in the spec
(section 4.4, step 1): the IAU 1982 polynomial in `T = (jd_ut1 - 2451545) / 36525`,
in radians. Used to state what `calc_gmst` returns. -/
noncomputable def gmstPoly (jd_ut1 : ℝ) : ℝ :=
  (67310.54841 + (876600 * 3600 + 8640184.812866
    + (0.093104 - 6.2e-6 * ((jd_ut1 - 2451545) / 36525)) * ((jd_ut1 - 2451545) / 36525))
      * ((jd_ut1 - 2451545) / 36525)) * (Real.pi / 180) / 240

/-! ## Conversions -/

theorem truncToInt_intCast (z : Int) : truncToInt (z : ℚ) = z := by
  unfold truncToInt
  split <;> simp

theorem toUInt32_natCast (n : Nat) (h : n < 4294967296) : toUInt32 (n : Int) = n := by
  unfold toUInt32
  omega

theorem truncToInt_natCast_div (a b : Nat) :
    truncToInt ((a : ℚ) / (b : ℚ)) = ((a / b : Nat) : Int) := by
  unfold truncToInt
  rw [if_pos (by positivity)]
  have h := Rat.floor_intCast_div_natCast (a : Int) b
  rw [Int.cast_natCast] at h
  rw [h]
  norm_cast

theorem truncToInt_scaled (a b n : Nat) (c : ℚ) (hc : c = (a : ℚ) / (b : ℚ)) :
    truncToInt (c * (n : ℚ)) = ((a * n / b : Nat) : Int) := by
  have : c * (n : ℚ) = ((a * n : Nat) : ℚ) / (b : ℚ) := by rw [hc]; push_cast; ring
  rw [this, truncToInt_natCast_div]

/-! ## Rounding to binary64 -/

/-- Rounding to nearest stays at or below an integer that the argument does not pass by
half a unit. -/
theorem roundHalfEven_le (q : ℚ) (n : Int) (h : q < (n : ℚ) + 1 / 2) :
    roundHalfEven q ≤ n := by
  have h1 := Int.floor_le q
  have h2 := Int.lt_floor_add_one q
  have h3 : ⌊q⌋ ≤ n := by
    have : ((⌊q⌋ : Int) : ℚ) < ((n + 1 : Int) : ℚ) := by push_cast; linarith
    have := Int.cast_lt.mp this
    omega
  unfold roundHalfEven
  simp only []
  split
  · exact h3
  · have h4 : ⌊q⌋ + 1 ≤ n := by
      by_contra hc
      have h5 : ⌊q⌋ = n := by omega
      rename_i h6
      apply h6
      rw [h5]
      linarith
    split
    · exact h4
    · split
      · exact h3
      · exact h4

/-- Rounding to nearest stays at or above an integer that the argument is not below by
half a unit. -/
theorem le_roundHalfEven (q : ℚ) (n : Int) (h : (n : ℚ) - 1 / 2 < q) :
    n ≤ roundHalfEven q := by
  have h1 := Int.floor_le q
  have h2 := Int.lt_floor_add_one q
  have h3 : n ≤ ⌊q⌋ + 1 := by
    have : ((n : Int) : ℚ) < ((⌊q⌋ + 2 : Int) : ℚ) := by push_cast; linarith
    have := Int.cast_lt.mp this
    omega
  unfold roundHalfEven
  simp only []
  split
  · rename_i h6
    by_contra hc
    have h5 : n = ⌊q⌋ + 1 := by omega
    rw [h5] at h
    push_cast at h
    linarith
  · split
    · exact h3
    · rename_i h6 h7
      have h8 : q - (⌊q⌋ : ℚ) = 1 / 2 := le_antisymm (not_lt.mp h7) (not_lt.mp h6)
      have h9 : n ≤ ⌊q⌋ := by
        by_contra hc
        have h5 : n = ⌊q⌋ + 1 := by omega
        rw [h5] at h
        push_cast at h
        linarith
      split
      · exact h9
      · exact h3

/-- An integer rounds to itself. -/
theorem roundHalfEven_intCast (n : Int) : roundHalfEven (n : ℚ) = n :=
  le_antisymm (roundHalfEven_le _ _ (by linarith)) (le_roundHalfEven _ _ (by linarith))

/-- Rounding to nearest moves a number by at most one half. -/
theorem roundHalfEven_sub_le (q : ℚ) : |(roundHalfEven q : ℚ) - q| ≤ 1 / 2 := by
  have h1 := Int.floor_le q
  have h2 := Int.lt_floor_add_one q
  rw [abs_le]
  unfold roundHalfEven
  simp only []
  split
  · constructor <;> linarith
  · rename_i h6
    push_neg at h6
    split
    · push_cast; constructor <;> linarith
    · split
      · constructor <;> linarith
      · push_cast; constructor <;> linarith

theorem two_zpow_pos (e : Int) : (0 : ℚ) < (2 : ℚ) ^ e := zpow_pos (by norm_num) e

theorem two_zpow_mul (a b : Int) : (2 : ℚ) ^ a * (2 : ℚ) ^ b = (2 : ℚ) ^ (a + b) :=
  (zpow_add₀ (by norm_num) a b).symm

/-- The exponent used by `binary64` for a nonzero `q` below `2^(E+1)`. -/
theorem binary64_exponent_le (q : ℚ) (E : Int) (hq : q ≠ 0) (hE : -1022 ≤ E)
    (h : |q| < (2 : ℚ) ^ (E + 1)) : max (Int.log 2 |q|) (-1022) ≤ E := by
  have hpos : 0 < |q| := abs_pos.mpr hq
  have h1 : Int.log 2 |q| < E + 1 :=
    (Int.lt_zpow_iff_log_lt (by norm_num) hpos).mp (by exact_mod_cast h)
  exact max_le (by omega) hE

/-- The exponent used by `binary64` in the binade `2^E <= |q| < 2^(E+1)`. -/
theorem binary64_exponent_eq (q : ℚ) (E : Int) (hE : -1022 ≤ E)
    (h1 : (2 : ℚ) ^ E ≤ |q|) (h2 : |q| < (2 : ℚ) ^ (E + 1)) :
    max (Int.log 2 |q|) (-1022) = E := by
  have hpos : 0 < |q| := lt_of_lt_of_le (two_zpow_pos E) h1
  have h3 : Int.log 2 |q| < E + 1 :=
    (Int.lt_zpow_iff_log_lt (by norm_num) hpos).mp (by exact_mod_cast h2)
  have h4 : E ≤ Int.log 2 |q| :=
    (Int.zpow_le_iff_le_log (by norm_num) hpos).mp (by exact_mod_cast h1)
  have : Int.log 2 |q| = E := by omega
  rw [this]
  exact max_eq_left hE

/-- A multiple of `2^(E-52)` is a multiple of `2^(e-52)` for `e ≤ E`. -/
theorem grid_refine (n e E : Int) (h : e ≤ E) :
    ∃ m : Int, (n : ℚ) * (2 : ℚ) ^ (E - 52) = (m : ℚ) * (2 : ℚ) ^ (e - 52) := by
  obtain ⟨d, hd⟩ := Int.eq_ofNat_of_zero_le (by omega : 0 ≤ E - e)
  refine ⟨n * 2 ^ d, ?_⟩
  have : E - 52 = (d : Int) + (e - 52) := by omega
  rw [this, zpow_add₀ (by norm_num), zpow_natCast]
  push_cast
  ring

/-- Rounding does not cross a number of the grid of spacing `2^(E-52)` when the
argument is below `2^(E+1)` in absolute value. -/
theorem binary64_le_grid (q : ℚ) (E n : Int) (hE : -1022 ≤ E)
    (h : |q| < (2 : ℚ) ^ (E + 1)) (hle : q ≤ (n : ℚ) * (2 : ℚ) ^ (E - 52)) :
    binary64 q ≤ (n : ℚ) * (2 : ℚ) ^ (E - 52) := by
  by_cases hq : q = 0
  · rw [hq] at hle
    simpa [binary64, hq] using hle
  · have he := binary64_exponent_le q E hq hE h
    unfold binary64
    rw [if_neg hq]
    simp only []
    generalize max (Int.log 2 |q|) (-1022) = e at he
    obtain ⟨m, hm⟩ := grid_refine n e E he
    rw [hm] at hle ⊢
    apply mul_le_mul_of_nonneg_right _ (le_of_lt (two_zpow_pos _))
    have h5 : q * (2 : ℚ) ^ (52 - e) ≤ (m : ℚ) := by
      have := mul_le_mul_of_nonneg_right hle (le_of_lt (two_zpow_pos (52 - e)))
      rwa [mul_assoc, two_zpow_mul, show e - 52 + (52 - e) = 0 by ring, zpow_zero,
        mul_one] at this
    exact_mod_cast roundHalfEven_le _ m (by linarith)

/-- The lower side of `binary64_le_grid`. -/
theorem grid_le_binary64 (q : ℚ) (E n : Int) (hE : -1022 ≤ E)
    (h : |q| < (2 : ℚ) ^ (E + 1)) (hle : (n : ℚ) * (2 : ℚ) ^ (E - 52) ≤ q) :
    (n : ℚ) * (2 : ℚ) ^ (E - 52) ≤ binary64 q := by
  by_cases hq : q = 0
  · rw [hq] at hle
    simpa [binary64, hq] using hle
  · have he := binary64_exponent_le q E hq hE h
    unfold binary64
    rw [if_neg hq]
    simp only []
    generalize max (Int.log 2 |q|) (-1022) = e at he
    obtain ⟨m, hm⟩ := grid_refine n e E he
    rw [hm] at hle ⊢
    apply mul_le_mul_of_nonneg_right _ (le_of_lt (two_zpow_pos _))
    have h5 : (m : ℚ) ≤ q * (2 : ℚ) ^ (52 - e) := by
      have := mul_le_mul_of_nonneg_right hle (le_of_lt (two_zpow_pos (52 - e)))
      rwa [mul_assoc, two_zpow_mul, show e - 52 + (52 - e) = 0 by ring, zpow_zero,
        mul_one] at this
    exact_mod_cast le_roundHalfEven _ m (by linarith)

/-- A multiple of `2^(E-52)` below `2^(E+1)` in absolute value is a `double`. -/
theorem binary64_grid (E n : Int) (hE : -1022 ≤ E)
    (h : |(n : ℚ) * (2 : ℚ) ^ (E - 52)| < (2 : ℚ) ^ (E + 1)) :
    binary64 ((n : ℚ) * (2 : ℚ) ^ (E - 52)) = (n : ℚ) * (2 : ℚ) ^ (E - 52) :=
  le_antisymm (binary64_le_grid _ E n hE h le_rfl) (grid_le_binary64 _ E n hE h le_rfl)

/-- In the binade `2^E ≤ |q| < 2^(E+1)` the result is the multiple of `2^(E-52)`
nearest to `q`. -/
theorem binary64_of_binade (q : ℚ) (E : Int) (hE : -1022 ≤ E)
    (h1 : (2 : ℚ) ^ E ≤ |q|) (h2 : |q| < (2 : ℚ) ^ (E + 1)) :
    binary64 q = (roundHalfEven (q * (2 : ℚ) ^ (52 - E)) : ℚ) * (2 : ℚ) ^ (E - 52) := by
  have hq : q ≠ 0 := by
    intro h0
    rw [h0, abs_zero] at h1
    exact absurd h1 (not_le.mpr (two_zpow_pos E))
  unfold binary64
  rw [if_neg hq]
  simp only []
  rw [binary64_exponent_eq q E hE h1 h2]

/-- The result of `binary64` from the two half-way points around it. -/
theorem binary64_of_near (q : ℚ) (E n : Int) (hE : -1022 ≤ E)
    (h1 : (2 : ℚ) ^ E ≤ |q|) (h2 : |q| < (2 : ℚ) ^ (E + 1))
    (h3 : ((n : ℚ) - 1 / 2) * (2 : ℚ) ^ (E - 52) < q)
    (h4 : q < ((n : ℚ) + 1 / 2) * (2 : ℚ) ^ (E - 52)) :
    binary64 q = (n : ℚ) * (2 : ℚ) ^ (E - 52) := by
  rw [binary64_of_binade q E hE h1 h2]
  have e1 : (2 : ℚ) ^ (E - 52) * (2 : ℚ) ^ (52 - E) = 1 := by
    rw [two_zpow_mul, show E - 52 + (52 - E) = 0 by ring, zpow_zero]
  have h5 : (n : ℚ) - 1 / 2 < q * (2 : ℚ) ^ (52 - E) := by
    have := mul_lt_mul_of_pos_right h3 (two_zpow_pos (52 - E))
    rwa [mul_assoc, e1, mul_one] at this
  have h6 : q * (2 : ℚ) ^ (52 - E) < (n : ℚ) + 1 / 2 := by
    have := mul_lt_mul_of_pos_right h4 (two_zpow_pos (52 - E))
    rwa [mul_assoc, e1, mul_one] at this
  have : roundHalfEven (q * (2 : ℚ) ^ (52 - E)) = n :=
    le_antisymm (roundHalfEven_le _ _ h6) (le_roundHalfEven _ _ h5)
  rw [this]

/-- The rounding error is at most half a unit in the last place. -/
theorem binary64_error (q : ℚ) (E : Int) (hE : -1022 ≤ E)
    (h : |q| < (2 : ℚ) ^ (E + 1)) : |binary64 q - q| ≤ (2 : ℚ) ^ (E - 53) := by
  by_cases hq : q = 0
  · simp [binary64, hq, le_of_lt (two_zpow_pos _)]
  · have he := binary64_exponent_le q E hq hE h
    unfold binary64
    rw [if_neg hq]
    simp only []
    generalize max (Int.log 2 |q|) (-1022) = e at he
    have e1 : (2 : ℚ) ^ (52 - e) * (2 : ℚ) ^ (e - 52) = 1 := by
      rw [two_zpow_mul, show 52 - e + (e - 52) = 0 by ring, zpow_zero]
    have h5 : (roundHalfEven (q * (2 : ℚ) ^ (52 - e)) : ℚ) * (2 : ℚ) ^ (e - 52) - q
        = ((roundHalfEven (q * (2 : ℚ) ^ (52 - e)) : ℚ) - q * (2 : ℚ) ^ (52 - e))
            * (2 : ℚ) ^ (e - 52) := by
      rw [sub_mul, mul_assoc, e1, mul_one]
    rw [h5, abs_mul, abs_of_pos (two_zpow_pos (e - 52))]
    have h6 := roundHalfEven_sub_le (q * (2 : ℚ) ^ (52 - e))
    have h7 : (2 : ℚ) ^ (e - 52) ≤ (2 : ℚ) ^ (E - 52) :=
      zpow_le_zpow_right₀ (by norm_num) (by omega)
    have h8 : (2 : ℚ) ^ (E - 53) = 1 / 2 * (2 : ℚ) ^ (E - 52) := by
      rw [show E - 52 = (E - 53) + 1 by ring, zpow_add₀ (by norm_num), zpow_one]
      ring
    rw [h8]
    exact mul_le_mul h6 h7 (le_of_lt (two_zpow_pos _)) (by norm_num)

/-- A `double` is a multiple of the unit in the last place of its binade. -/
theorem binary64_form (q : ℚ) (h : binary64 q = q) :
    ∃ e m : Int, -1022 ≤ e ∧ q = (m : ℚ) * (2 : ℚ) ^ (e - 52) ∧ |q| < (2 : ℚ) ^ (e + 1) := by
  by_cases hq : q = 0
  · exact ⟨-1022, 0, le_rfl, by simp [hq], by rw [hq, abs_zero]; exact two_zpow_pos _⟩
  · refine ⟨max (Int.log 2 |q|) (-1022), roundHalfEven
      (q * (2 : ℚ) ^ (52 - max (Int.log 2 |q|) (-1022))), le_max_right _ _, ?_, ?_⟩
    · conv_lhs => rw [← h]
      unfold binary64
      rw [if_neg hq]
    · have h1 : |q| < (2 : ℚ) ^ (Int.log 2 |q| + 1) := by
        exact_mod_cast Int.lt_zpow_succ_log_self (by norm_num : 1 < 2) |q|
      exact lt_of_lt_of_le h1 (zpow_le_zpow_right₀ (by norm_num)
        (by have := le_max_left (Int.log 2 |q|) (-1022); omega))

/-- An integer below `2^53` in absolute value is a `double`. -/
theorem binary64_intCast (n : Int) (h : |(n : ℚ)| < 9007199254740992) :
    binary64 (n : ℚ) = (n : ℚ) := by
  have := binary64_grid 52 n (by norm_num) (by norm_num; linarith)
  norm_num at this
  exact this

/-- Zero is a `double`. -/
theorem binary64_zero : binary64 0 = 0 := by simp [binary64]

/-- The number `0.5` is a `double`. -/
theorem binary64_half : binary64 0.5 = 0.5 := by
  have := binary64_grid (-1) (4503599627370496) (by norm_num) (by norm_num [abs_lt])
  norm_num at this ⊢
  exact this

/-- The number `-0.5` is a `double`. -/
theorem binary64_neg_half : binary64 (-0.5) = -0.5 := by
  have := binary64_grid (-1) (-4503599627370496) (by norm_num) (by norm_num [abs_lt])
  norm_num at this ⊢
  exact this

/-! ## ts_add -/

/-- The carry loop keeps the total number of nanoseconds. -/
theorem ts_add_carry_total (sec nsec : Int) :
    (ts_add_carry sec nsec).1 * 1000000000 + (ts_add_carry sec nsec).2
      = sec * 1000000000 + nsec := by
  induction sec, nsec using ts_add_carry.induct with
  | case1 sec nsec h ih =>
    rw [ts_add_carry, if_pos h]
    have h2 : (nsec : ℚ) - kE9 = ((nsec - 1000000000 : Int) : ℚ) := by simp [kE9]
    rw [h2, truncToInt_intCast] at ih ⊢
    rw [ih]; ring
  | case2 sec nsec h =>
    rw [ts_add_carry, if_neg h]

/-- The borrow loop keeps the total number of nanoseconds. -/
theorem ts_add_borrow_total (sec nsec : Int) :
    (ts_add_borrow sec nsec).1 * 1000000000 + (ts_add_borrow sec nsec).2
      = sec * 1000000000 + nsec := by
  induction sec, nsec using ts_add_borrow.induct with
  | case1 sec nsec h ih =>
    rw [ts_add_borrow, if_pos h]
    have h2 : (nsec : ℚ) + kE9 = ((nsec + 1000000000 : Int) : ℚ) := by simp [kE9]
    rw [h2, truncToInt_intCast] at ih ⊢
    rw [ih]; ring
  | case2 sec nsec h =>
    rw [ts_add_borrow, if_neg h]

/-- C1, on the code: `ts_add` applied to `(tv_sec 0, tv_nsec 500000000)` and `s = 0.5`
returns `tv_nsec = 1000000000`, which is not strictly below `10^9`. Every intermediate
value is a `double` (`0.5`, `5 * 10^8`, `10^9`), so nothing is rounded: the un-normalised
value is exactly `10^9` and the carry loop tests `tv_nsec > kE9`, so it does not run. -/
theorem ts_add_half_second_keeps_full_nsec :
    ts_add ⟨0, 500000000⟩ 0.5 = ⟨0, 1000000000⟩ := by
  have h1 : truncToInt (0.5 : ℚ) = 0 := by norm_num [truncToInt, Int.floor_eq_iff]
  have h3 : binary64 ((0.5 : ℚ) - ((0 : Int) : ℚ)) = 0.5 := by
    rw [Int.cast_zero, sub_zero]; exact binary64_half
  have h4 : binary64 ((0.5 : ℚ) * kE9) = ((500000000 : Int) : ℚ) := by
    have : (0.5 : ℚ) * kE9 = ((500000000 : Int) : ℚ) := by norm_num [kE9]
    rw [this]
    exact binary64_intCast _ (by norm_num)
  have h5 : binary64 ((500000000 : Int) : ℚ) = ((500000000 : Int) : ℚ) :=
    binary64_intCast _ (by norm_num)
  have h6 : binary64 (((500000000 : Int) : ℚ) + ((500000000 : Int) : ℚ))
      = ((1000000000 : Int) : ℚ) := by
    have : ((500000000 : Int) : ℚ) + ((500000000 : Int) : ℚ) = ((1000000000 : Int) : ℚ) := by
      norm_num
    rw [this]
    exact binary64_intCast _ (by norm_num)
  unfold ts_add
  simp only [h1, h3, h4, h5, h6, truncToInt_intCast]
  rw [ts_add_carry, if_neg (by norm_num [kE9])]
  rw [ts_add_borrow, if_neg (by norm_num)]
  simp

/-! ## jday and gc2jd -/

/-- Closed form of `jday` in integer arithmetic. -/
theorem jday_eq (y m d h mi : Nat) (s : ℚ) (hy : y < 4000000000) (hm : m ≤ 12) :
    jday ⟨y, m, d, h, mi, s⟩
      = (((367 * y + 275 * m / 9 + d : Nat) : Int)
            - ((7 * (y + (m + 9) / 12) / 4 : Nat) : Int) : Int)
        + 1721013.5 + ((s / 60 + (mi : ℚ)) / 60 + (h : ℚ)) / 24 := by
  unfold jday
  have e1 : truncToInt (((m : ℚ) + 9) / 12) = (((m + 9) / 12 : Nat) : Int) := by
    have : ((m : ℚ) + 9) / 12 = ((m + 9 : Nat) : ℚ) / ((12 : Nat) : ℚ) := by push_cast; ring
    rw [this, truncToInt_natCast_div]
  have e2 : toUInt32 ((y : Int) + (((m + 9) / 12 : Nat) : Int)) = y + (m + 9) / 12 := by
    have : (y : Int) + (((m + 9) / 12 : Nat) : Int) = ((y + (m + 9) / 12 : Nat) : Int) := by
      push_cast; ring
    rw [this, toUInt32_natCast]
    omega
  have e3 : truncToInt (7 * ((y + (m + 9) / 12 : Nat) : ℚ) * 0.25)
      = ((7 * (y + (m + 9) / 12) / 4 : Nat) : Int) := by
    have : 7 * ((y + (m + 9) / 12 : Nat) : ℚ) * 0.25
        = ((7 * (y + (m + 9) / 12) : Nat) : ℚ) / ((4 : Nat) : ℚ) := by
      push_cast; ring
    rw [this, truncToInt_natCast_div]
  have e4 : truncToInt (275 * (m : ℚ) / 9) = ((275 * m / 9 : Nat) : Int) := by
    have : 275 * (m : ℚ) / 9 = ((275 * m : Nat) : ℚ) / ((9 : Nat) : ℚ) := by push_cast; ring
    rw [this, truncToInt_natCast_div]
  simp only [e1, e2, e3, e4]
  push_cast
  ring

/-- The four truncated terms of `gc2jd` and the day, converted to `unsigned int`. -/
theorem gc2jd_tm_core (y m d : Nat) (hy : y ≤ 1000000) (hm : 3 ≤ m ∧ m ≤ 14)
    (hd : d < 2147483648) :
    toUInt32 (truncToInt (365.25 * (y : ℚ)) + truncToInt ((y : ℚ) / 400)
        - truncToInt ((y : ℚ) / 100)
        + truncToInt (30.59 * ((toUInt32 ((m : Int) - 2) : ℕ) : ℚ)) + (d : Int))
      = gcDays y m + d := by
  have e0 : toUInt32 ((m : Int) - 2) = m - 2 := by unfold toUInt32; omega
  have e1 : truncToInt (365.25 * (y : ℚ)) = ((1461 * y / 4 : Nat) : Int) :=
    truncToInt_scaled 1461 4 y _ (by norm_num)
  have e2 : truncToInt ((y : ℚ) / 400) = ((y / 400 : Nat) : Int) := by
    have := truncToInt_natCast_div y 400
    simpa using this
  have e3 : truncToInt ((y : ℚ) / 100) = ((y / 100 : Nat) : Int) := by
    have := truncToInt_natCast_div y 100
    simpa using this
  have e4 : truncToInt (30.59 * ((m - 2 : Nat) : ℚ)) = ((3059 * (m - 2) / 100 : Nat) : Int) :=
    truncToInt_scaled 3059 100 (m - 2) _ (by norm_num)
  rw [e0, e1, e2, e3, e4]
  unfold toUInt32 gcDays
  omega

/-- Closed form of the body of `gc2jd` in integer arithmetic, for a calendar date. -/
theorem gc2jd_tm_eq (y m d h mi s : Nat) (hy : 1 ≤ y ∧ y ≤ 1000000) (hm : 1 ≤ m ∧ m ≤ 12)
    (hd : d < 2147483648) (hh : h < 4294967296) (hmi : mi < 4294967296) (hs : s < 4294967296)
    (nsec : Int) :
    gc2jd_tm ⟨(y : Int) - 1900, (m : Int) - 1, d, h, mi, s⟩ nsec
      = ((if m < 3 then gcDays (y - 1) (m + 12) + d else gcDays y m + d : Nat) : ℚ)
        + 1721088.5 + ((s : ℚ) / 3600 + (mi : ℚ) / 60 + (h : ℚ)) / 24
        + (nsec : ℚ) / 1000000000 / 3600 / 24 := by
  have a1 : toUInt32 ((y : Int) - 1900 + 1900) = y := by unfold toUInt32; omega
  have a2 : toUInt32 ((m : Int) - 1 + 1) = m := by unfold toUInt32; omega
  have a3 : toUInt32 (d : Int) = d := toUInt32_natCast d (by omega)
  have a4 : toUInt32 (h : Int) = h := toUInt32_natCast h hh
  have a5 : toUInt32 (mi : Int) = mi := toUInt32_natCast mi hmi
  have a6 : toUInt32 (s : Int) = s := toUInt32_natCast s hs
  unfold gc2jd_tm
  simp only [a1, a2, a3, a4, a5, a6]
  by_cases hlt : m < 3
  · have b1 : toUInt32 ((y : Int) - 1) = y - 1 := by unfold toUInt32; omega
    have b2 : toUInt32 ((m : Int) + 12) = m + 12 := by unfold toUInt32; omega
    simp only [if_pos hlt, b1, b2]
    rw [gc2jd_tm_core (y - 1) (m + 12) d (by omega) (by omega) hd]
  · simp only [if_neg hlt]
    rw [gc2jd_tm_core y m d (by omega) (by omega) hd]

/-- From March 1900 to February 2100 the integer day counts of `jday` and `gc2jd`
differ by the constant 75, the difference of the two offsets. -/
theorem jday_gcDays_agree (y m : Nat) (hm : 1 ≤ m ∧ m ≤ 12)
    (hlo : 1900 < y ∨ (y = 1900 ∧ 3 ≤ m)) (hhi : y < 2100 ∨ (y = 2100 ∧ m ≤ 2)) :
    ((367 * y + 275 * m / 9 : Nat) : Int) - ((7 * (y + (m + 9) / 12) / 4 : Nat) : Int)
      = ((if m < 3 then gcDays (y - 1) (m + 12) else gcDays y m : Nat) : Int) + 75 := by
  unfold gcDays
  obtain ⟨h1, h2⟩ := hm
  interval_cases m <;> simp <;> omega

/-- C3: `gc2jd` applied to an instant whose broken-down calendar fields are
2000-01-01 12:00:00, with `tv_nsec = 0`, returns exactly 2451545. -/
theorem gc2jd_j2000_anchor (localtime_r : Int → Tm) (ts : Timespec)
    (ht : localtime_r ts.tv_sec = ⟨100, 0, 1, 12, 0, 0⟩) (hn : ts.tv_nsec = 0) :
    gc2jd localtime_r ts = 2451545 := by
  have e : (⟨100, 0, 1, 12, 0, 0⟩ : Tm)
      = ⟨((2000 : Nat) : Int) - 1900, ((1 : Nat) : Int) - 1, (1 : Nat), (12 : Nat),
          (0 : Nat), (0 : Nat)⟩ := by norm_num
  unfold gc2jd
  rw [ht, hn, e, gc2jd_tm_eq 2000 1 1 12 0 0 (by decide) (by decide) (by decide) (by decide)
    (by decide) (by decide)]
  have g : gcDays (2000 - 1) (1 + 12) = 730455 := by decide
  rw [if_pos (by decide), g]
  norm_num

/-- Witness of C3: the instant 946728000 s, broken down as 2000-01-01 12:00:00. -/
theorem gc2jd_j2000_anchor_witness :
    gc2jd (fun _ => ⟨100, 0, 1, 12, 0, 0⟩) ⟨946728000, 0⟩ = 2451545 :=
  gc2jd_j2000_anchor (fun _ => ⟨100, 0, 1, 12, 0, 0⟩) ⟨946728000, 0⟩ rfl rfl

/-- C4, counterexample: for 2100-03-01 00:00:00 `jday` returns 2488129.5 and `gc2jd`
returns 2488128.5. -/
theorem jday_gc2jd_differ_2100_03_01 :
    jday ⟨2100, 3, 1, 0, 0, 0⟩ = 2488129.5
      ∧ gc2jd (fun _ => ⟨200, 2, 1, 0, 0, 0⟩) ⟨4107542400, 0⟩ = 2488128.5
      ∧ jday ⟨2100, 3, 1, 0, 0, 0⟩ ≠ gc2jd (fun _ => ⟨200, 2, 1, 0, 0, 0⟩) ⟨4107542400, 0⟩ := by
  have e : (⟨200, 2, 1, 0, 0, 0⟩ : Tm)
      = ⟨((2100 : Nat) : Int) - 1900, ((3 : Nat) : Int) - 1, (1 : Nat), (0 : Nat),
          (0 : Nat), (0 : Nat)⟩ := by norm_num
  have hj : jday ⟨2100, 3, 1, 0, 0, 0⟩ = 2488129.5 := by
    rw [jday_eq 2100 3 1 0 0 0 (by decide) (by decide)]
    norm_num
  have hg : gc2jd (fun _ => ⟨200, 2, 1, 0, 0, 0⟩) ⟨4107542400, 0⟩ = 2488128.5 := by
    unfold gc2jd
    simp only []
    rw [e, gc2jd_tm_eq 2100 3 1 0 0 0 (by decide) (by decide) (by decide) (by decide)
      (by decide) (by decide)]
    have g : gcDays 2100 3 = 767039 := by decide
    rw [if_neg (by decide), g]
    norm_num
  refine ⟨hj, hg, ?_⟩
  rw [hj, hg]
  norm_num

/-- C4, amended: for every calendar date from 1900-03-01 to 2100-02-28 (month 1..12,
day 1..31) and every time of day with whole seconds, `jday` returns the same Julian
Date as `gc2jd` computes from the same calendar fields with `tv_nsec = 0`. -/
theorem jday_eq_gc2jd_march1900_feb2100 (localtime_r : Int → Tm) (ts : Timespec)
    (y m d h mi s : Nat)
    (ht : localtime_r ts.tv_sec
      = ⟨(y : Int) - 1900, (m : Int) - 1, (d : Int), (h : Int), (mi : Int), (s : Int)⟩)
    (hn : ts.tv_nsec = 0)
    (hm : 1 ≤ m ∧ m ≤ 12) (hd : 1 ≤ d ∧ d ≤ 31)
    (hh : h < 24) (hmi : mi < 60) (hs : s < 60)
    (hlo : 1900 < y ∨ (y = 1900 ∧ 3 ≤ m)) (hhi : y < 2100 ∨ (y = 2100 ∧ m ≤ 2)) :
    jday ⟨y, m, d, h, mi, (s : ℚ)⟩ = gc2jd localtime_r ts := by
  unfold gc2jd
  rw [ht, hn, jday_eq y m d h mi s (by omega) hm.2,
    gc2jd_tm_eq y m d h mi s (by omega) hm (by omega) (by omega) (by omega) (by omega)]
  have key := jday_gcDays_agree y m hm hlo hhi
  have key2 : (((367 * y + 275 * m / 9 + d : Nat) : Int)
        - ((7 * (y + (m + 9) / 12) / 4 : Nat) : Int) : Int)
      = ((if m < 3 then gcDays (y - 1) (m + 12) + d else gcDays y m + d : Nat) : Int) + 75 := by
    split_ifs at key ⊢ <;> push_cast at key ⊢ <;> omega
  have key3 := congrArg (Int.cast : Int → ℚ) key2
  rw [key3]
  push_cast
  ring

/-- Witness of C4 as amended: 2021-06-10 00:00:00. -/
theorem jday_eq_gc2jd_march1900_feb2100_witness :
    jday ⟨2021, 6, 10, 0, 0, 0⟩
      = gc2jd (fun _ => ⟨121, 5, 10, 0, 0, 0⟩) ⟨1623283200, 0⟩ := by
  have h := jday_eq_gc2jd_march1900_feb2100 (fun _ => ⟨121, 5, 10, 0, 0, 0⟩)
    ⟨1623283200, 0⟩ 2021 6 10 0 0 0 (by norm_num) rfl (by decide) (by decide) (by decide)
    (by decide) (by decide) (by decide) (by decide)
  simpa using h

/-! ## Constants and library functions of blh.cpp -/

theorem kPi_eq : kPi = Real.pi := by
  unfold kPi
  rw [Real.arctan_one]
  ring

theorem kPi2_eq : kPi2 = 2 * Real.pi := by
  unfold kPi2
  rw [kPi_eq]
  ring

theorem kPi180_pos : 0 < kPi180 := by
  unfold kPi180
  rw [kPi_eq]
  positivity

/-- When `|x| < y`, `fmod(x, y)` is `x`. -/
theorem fmod_of_abs_lt (x y : ℝ) (h : |x| < y) : fmod x y = x := by
  have hy : 0 < y := lt_of_le_of_lt (abs_nonneg x) h
  obtain ⟨h1, h2⟩ := abs_lt.mp h
  have ht : truncReal (x / y) = 0 := by
    unfold truncReal
    split
    · rename_i h0
      rw [Int.floor_eq_zero_iff]
      exact ⟨h0, (div_lt_one hy).mpr h2⟩
    · rename_i h0
      rw [Int.ceil_eq_zero_iff]
      push_neg at h0
      refine ⟨?_, le_of_lt h0⟩
      rw [lt_div_iff₀ hy]
      linarith
  unfold fmod
  rw [ht]
  simp

/-! ## apply_kinematic and teme2blh -/

/-- C5, on the code: after 1997 (`jd_ut1 = 2450450 > 2450449.5`), for `gmst = 0` and
`Omega = 3*pi/2`, `apply_kinematic` returns `-(0.00264 * pi / 648000)`, a negative
value, hence not one in `[0, 2*pi)`: `fmod` keeps the sign of its first argument and
nothing is added afterwards. -/
theorem apply_kinematic_negative :
    Blh.apply_kinematic ⟨0, 0, 0, 2450450, 0⟩ 0 (3 * Real.pi / 2)
        = -(0.00264 * Real.pi / 648000)
      ∧ Blh.apply_kinematic ⟨0, 0, 0, 2450450, 0⟩ 0 (3 * Real.pi / 2) < 0 := by
  have hs1 : Real.sin (3 * Real.pi / 2) = -1 := by
    have : 3 * Real.pi / 2 = Real.pi / 2 + Real.pi := by ring
    rw [this, Real.sin_add_pi, Real.sin_pi_div_two]
  have hs2 : Real.sin (3 * Real.pi / 2 * 2) = 0 := by
    have : 3 * Real.pi / 2 * 2 = ((3 : ℕ) : ℝ) * Real.pi := by push_cast; ring
    rw [this, Real.sin_nat_mul_pi]
  have hval : Blh.apply_kinematic ⟨0, 0, 0, 2450450, 0⟩ 0 (3 * Real.pi / 2)
      = -(0.00264 * Real.pi / 648000) := by
    unfold Blh.apply_kinematic
    simp only []
    rw [if_pos (by norm_num), hs1, hs2, kPi_eq, kPi2_eq, fmod_of_abs_lt]
    · ring
    · rw [abs_lt]
      constructor <;> nlinarith [Real.pi_pos]
  refine ⟨hval, ?_⟩
  rw [hval]
  have := Real.pi_pos
  linarith [show (0:ℝ) < 0.00264 * Real.pi / 648000 by positivity]

/-- C6: the speed returned by `teme2blh` is the Euclidean norm of the TEME velocity,
whatever the object and the position; two calls with the same velocity return the
same speed. -/
theorem teme2blh_speed :
    (∀ (o : Blh) (teme : PvTeme),
        (o.teme2blh teme).v
          = Real.sqrt (teme.v.x ^ 2 + teme.v.y ^ 2 + teme.v.z ^ 2))
      ∧ (∀ (o o' : Blh) (r r' v : Coord), (o.teme2blh ⟨r, v⟩).v = (o'.teme2blh ⟨r', v⟩).v)
      ∧ (∀ (o : Blh) (r : Coord), (o.teme2blh ⟨r, ⟨7.5, -1.2, 3.3⟩⟩).v
          = Real.sqrt (7.5 ^ 2 + 1.2 ^ 2 + 3.3 ^ 2)) := by
  refine ⟨?_, ?_, ?_⟩
  · intro o teme
    unfold Blh.teme2blh
    simp only [pow_two]
  · intro o o' r r' v
    rfl
  · intro o r
    unfold Blh.teme2blh
    simp only []
    congr 1
    ring

/-! ## ecef2blh -/

/-- The value of `atan2(0, x)` is 0 for `x >= 0`. -/
theorem atan2_zero_of_nonneg (x : ℝ) (hx : 0 ≤ x) : atan2 0 x = 0 := by
  unfold atan2
  have : (⟨x, 0⟩ : ℂ) = (x : ℂ) := rfl
  rw [this, Complex.arg_ofReal_of_nonneg hx]

/-- The value of `atan2(y, 0)` is `pi/2` for `y > 0`. -/
theorem atan2_pos_zero (y : ℝ) (hy : 0 < y) : atan2 y 0 = Real.pi / 2 := by
  unfold atan2
  have : (⟨0, y⟩ : ℂ) = (y : ℂ) * Complex.I := by
    apply Complex.ext <;> simp
  rw [this, Complex.arg_real_mul _ hy, Complex.arg_I]

/-- The value of `atan2` does not change when both arguments are scaled by a positive factor. -/
theorem atan2_scale (y x c : ℝ) (hc : 0 < c) : atan2 (y * c) (x * c) = atan2 y x := by
  unfold atan2
  have : (⟨x * c, y * c⟩ : ℂ) = (c : ℂ) * (⟨x, y⟩ : ℂ) := by
    apply Complex.ext <;> simp [mul_comm]
  rw [this, Complex.arg_real_mul _ hc]

theorem kA_cast : ((kA : ℚ) : ℝ) = 6378137 := by
  unfold kA; norm_num

theorem kB_cast_pos : (0 : ℝ) < ((kB : ℚ) : ℝ) := by
  have : (0 : ℚ) < kB := by unfold kB kA k1F; norm_num
  exact_mod_cast this

theorem kEd2_cast_pos : (0 : ℝ) < ((kEd2 : ℚ) : ℝ) := by
  have : (0 : ℚ) < kEd2 := by unfold kEd2 kE2 kB kA k1F; norm_num
  exact_mod_cast this

/-- The distance from the polar axis computed by `ecef2blh`, in metres. -/
theorem ecef2blh_p (x y : ℝ) :
    Real.sqrt (x * 1.0e3 * (x * 1.0e3) + y * 1.0e3 * (y * 1.0e3))
      = 1000 * Real.sqrt (x ^ 2 + y ^ 2) := by
  have : x * 1.0e3 * (x * 1.0e3) + y * 1.0e3 * (y * 1.0e3) = 1000 ^ 2 * (x ^ 2 + y ^ 2) := by
    norm_num; ring
  rw [this, Real.sqrt_mul (by positivity), Real.sqrt_sq (by norm_num)]

/-- C7: for an ECEF input in the equatorial plane (`z = 0`) whose distance from the
axis `p = 1000 * sqrt(x^2 + y^2)` metres exceeds `e^2 * a`, `ecef2blh` returns
latitude 0, longitude `atan2(y, x)` in degrees and height `p - a` metres. -/
theorem ecef2blh_equatorial (ecef : Coord) (hz : ecef.z = 0)
    (hp : ((kE2 : ℚ) : ℝ) * ((kA : ℚ) : ℝ) < 1000 * Real.sqrt (ecef.x ^ 2 + ecef.y ^ 2)) :
    (Blh.ecef2blh ecef).b = 0
      ∧ (Blh.ecef2blh ecef).l = atan2 ecef.y ecef.x / kPi180
      ∧ (Blh.ecef2blh ecef).h
          = 1000 * Real.sqrt (ecef.x ^ 2 + ecef.y ^ 2) - ((kA : ℚ) : ℝ) := by
  have hp0 : (0 : ℝ) ≤ 1000 * Real.sqrt (ecef.x ^ 2 + ecef.y ^ 2) := by positivity
  have hth : atan2 (ecef.z * 1.0e3 * ((kA : ℚ) : ℝ))
      (1000 * Real.sqrt (ecef.x ^ 2 + ecef.y ^ 2) * ((kB : ℚ) : ℝ)) = 0 := by
    rw [hz]
    simp only [zero_mul]
    exact atan2_zero_of_nonneg _ (mul_nonneg hp0 (le_of_lt kB_cast_pos))
  have hb : (Blh.ecef2blh ecef).b = 0 := by
    unfold Blh.ecef2blh
    simp only [ecef2blh_p, hth, zero_div, zero_mul, Real.sin_zero, Real.cos_zero]
    rw [hz]
    norm_num
    left
    exact atan2_zero_of_nonneg _ (by linarith)
  refine ⟨hb, ?_, ?_⟩
  · unfold Blh.ecef2blh
    simp only []
    rw [atan2_scale _ _ _ (by norm_num)]
  · have hh : (Blh.ecef2blh ecef).h
        = 1000 * Real.sqrt (ecef.x ^ 2 + ecef.y ^ 2)
            / Real.cos ((Blh.ecef2blh ecef).b * kPi180) - Blh.n (Blh.ecef2blh ecef).b := by
      unfold Blh.ecef2blh
      simp only [ecef2blh_p]
    rw [hh, hb]
    unfold Blh.n
    simp

/-- Witness of C7: the point (6378137, 0, 0) m, passed as (6378.137, 0, 0) km, has
latitude 0, longitude 0 and height 0. -/
theorem ecef2blh_equatorial_witness :
    (Blh.ecef2blh ⟨6378.137, 0, 0⟩).b = 0
      ∧ (Blh.ecef2blh ⟨6378.137, 0, 0⟩).l = 0
      ∧ (Blh.ecef2blh ⟨6378.137, 0, 0⟩).h = 0 := by
  have hs : Real.sqrt ((6378.137 : ℝ) ^ 2 + 0 ^ 2) = 6378.137 := by
    rw [show (6378.137 : ℝ) ^ 2 + 0 ^ 2 = 6378.137 ^ 2 by ring]
    exact Real.sqrt_sq (by norm_num)
  have hk : ((kE2 : ℚ) : ℝ) * ((kA : ℚ) : ℝ) < 1000 * 6378.137 := by
    have hq : kE2 * kA < (6378137 : ℚ) := by unfold kE2 kA k1F; norm_num
    have hr : ((kE2 : ℚ) : ℝ) * ((kA : ℚ) : ℝ) < 6378137 := by exact_mod_cast hq
    linarith
  obtain ⟨h1, h2, h3⟩ := ecef2blh_equatorial ⟨6378.137, 0, 0⟩ rfl (by
    show ((kE2 : ℚ) : ℝ) * ((kA : ℚ) : ℝ) < 1000 * Real.sqrt ((6378.137 : ℝ) ^ 2 + 0 ^ 2)
    rw [hs]; exact hk)
  refine ⟨h1, ?_, ?_⟩
  · rw [h2]
    show atan2 0 6378.137 / kPi180 = 0
    rw [atan2_zero_of_nonneg _ (by norm_num), zero_div]
  · rw [h3]
    show 1000 * Real.sqrt ((6378.137 : ℝ) ^ 2 + 0 ^ 2) - ((kA : ℚ) : ℝ) = 0
    rw [hs, kA_cast]
    norm_num

theorem kPi180_mul_90 : (90 : ℝ) * kPi180 = Real.pi / 2 := by
  unfold kPi180
  rw [kPi_eq]
  ring

/-- On the polar axis (`x = y = 0`, `z > 0`) `ecef2blh` returns latitude 90 and the
height `-a / sqrt(1 - e^2)`, whatever `z` is: `p` is 0, so the quotient
`p / cos(latitude)` contributes nothing and only `-N(90)` is left. -/
theorem ecef2blh_polar_axis (z : ℝ) (hz : 0 < z) :
    (Blh.ecef2blh ⟨0, 0, z⟩).b = 90
      ∧ (Blh.ecef2blh ⟨0, 0, z⟩).h
          = -(((kA : ℚ) : ℝ) / Real.sqrt (1 - ((kE2 : ℚ) : ℝ))) := by
  have hA : (0 : ℝ) < ((kA : ℚ) : ℝ) := by rw [kA_cast]; norm_num
  have hk : kPi180 ≠ 0 := ne_of_gt kPi180_pos
  have hth : atan2 (z * 1.0e3 * ((kA : ℚ) : ℝ)) 0 / kPi180 * kPi180 = Real.pi / 2 := by
    rw [div_mul_cancel₀ _ hk]
    exact atan2_pos_zero _ (by positivity)
  have hb : (Blh.ecef2blh ⟨0, 0, z⟩).b = 90 := by
    unfold Blh.ecef2blh
    simp only [zero_mul, add_zero, Real.sqrt_zero, hth, Real.sin_pi_div_two,
      Real.cos_pi_div_two]
    have hpos : 0 < z * 1.0e3 + ((kEd2 : ℚ) : ℝ) * ((kB : ℚ) : ℝ) * 1 ^ 3 := by
      have := kEd2_cast_pos
      have := kB_cast_pos
      positivity
    have h0 : (0 : ℝ) - ((kE2 : ℚ) : ℝ) * ((kA : ℚ) : ℝ) * 0 ^ 3 = 0 := by ring
    rw [h0, atan2_pos_zero _ hpos, ← kPi180_mul_90]
    field_simp
  refine ⟨hb, ?_⟩
  have hh : (Blh.ecef2blh ⟨0, 0, z⟩).h
      = Real.sqrt ((0 : ℝ) * 1.0e3 * (0 * 1.0e3) + 0 * 1.0e3 * (0 * 1.0e3))
          / Real.cos ((Blh.ecef2blh ⟨0, 0, z⟩).b * kPi180)
        - Blh.n (Blh.ecef2blh ⟨0, 0, z⟩).b := by
    unfold Blh.ecef2blh
    simp only []
  rw [hh, hb]
  unfold Blh.n
  rw [kPi180_mul_90, Real.sin_pi_div_two]
  simp

/-- C8, on the code: for the pole of the ellipsoid, passed as (0, 0, 6356.752314245)
km, `ecef2blh` returns latitude 90 and the height `-a / (1 - f)`, below -6399593 m,
not a height within 1e-3 m of 0. -/
theorem ecef2blh_pole_height :
    (Blh.ecef2blh ⟨0, 0, 6356.752314245⟩).b = 90
      ∧ (Blh.ecef2blh ⟨0, 0, 6356.752314245⟩).h = -(6378137 / (1 - 1 / 298.257223563))
      ∧ (Blh.ecef2blh ⟨0, 0, 6356.752314245⟩).h < -6399593 := by
  obtain ⟨h1, h2⟩ := ecef2blh_polar_axis 6356.752314245 (by norm_num)
  have hq : (1 : ℚ) - kE2 = (1 - 1 / 298.257223563) ^ 2 := by
    unfold kE2 k1F; ring
  have hr : (1 : ℝ) - ((kE2 : ℚ) : ℝ) = (1 - 1 / 298.257223563) ^ 2 := by
    have := congrArg (Rat.cast : ℚ → ℝ) hq
    push_cast at this
    rw [this]
  have hv : (Blh.ecef2blh ⟨0, 0, 6356.752314245⟩).h
      = -(6378137 / (1 - 1 / 298.257223563)) := by
    rw [h2, hr, Real.sqrt_sq (by norm_num), kA_cast]
  refine ⟨h1, hv, ?_⟩
  rw [hv]
  norm_num

/-! ## Rotation matrices -/

theorem mul_transpose_apply3 (M : Matrix (Fin 3) (Fin 3) ℝ) (i j : Fin 3) :
    (M * M.transpose) i j = M i 0 * M j 0 + M i 1 * M j 1 + M i 2 * M j 2 := by
  simp [Matrix.mul_apply, Fin.sum_univ_three, Matrix.transpose_apply]

theorem rz_entries (ang : ℝ) :
    Blh.gen_mtx_rz ang 0 0 = Real.cos ang ∧ Blh.gen_mtx_rz ang 0 1 = Real.sin ang
      ∧ Blh.gen_mtx_rz ang 0 2 = 0
      ∧ Blh.gen_mtx_rz ang 1 0 = -Real.sin ang ∧ Blh.gen_mtx_rz ang 1 1 = Real.cos ang
      ∧ Blh.gen_mtx_rz ang 1 2 = 0
      ∧ Blh.gen_mtx_rz ang 2 0 = 0 ∧ Blh.gen_mtx_rz ang 2 1 = 0
      ∧ Blh.gen_mtx_rz ang 2 2 = 1 := by
  unfold Blh.gen_mtx_rz
  simp

theorem rpm_entries (o : Blh) :
    ∃ sa ca sb cb sc cc : ℝ,
      sa ^ 2 + ca ^ 2 = 1 ∧ sb ^ 2 + cb ^ 2 = 1 ∧ sc ^ 2 + cc ^ 2 = 1
        ∧ o.gen_mtx_rpm 0 0 = ca * cc ∧ o.gen_mtx_rpm 0 1 = ca * sc
        ∧ o.gen_mtx_rpm 0 2 = sa
        ∧ o.gen_mtx_rpm 1 0 = -cb * sc + sb * sa * cc
        ∧ o.gen_mtx_rpm 1 1 = cb * cc + sb * sa * sc
        ∧ o.gen_mtx_rpm 1 2 = -sb * ca
        ∧ o.gen_mtx_rpm 2 0 = -sb * sc - cb * sa * cc
        ∧ o.gen_mtx_rpm 2 1 = sb * cc - cb * sa * sc
        ∧ o.gen_mtx_rpm 2 2 = cb * ca := by
  refine ⟨Real.sin (o.pm_x * kPi / (180 * 60 * 60 * 1000)),
    Real.cos (o.pm_x * kPi / (180 * 60 * 60 * 1000)),
    Real.sin (o.pm_y * kPi / (180 * 60 * 60 * 1000)),
    Real.cos (o.pm_y * kPi / (180 * 60 * 60 * 1000)),
    Real.sin (-47.0e-6 * o.jcn_tt * (kPi / (3600 * 180))),
    Real.cos (-47.0e-6 * o.jcn_tt * (kPi / (3600 * 180))),
    Real.sin_sq_add_cos_sq _, Real.sin_sq_add_cos_sq _, Real.sin_sq_add_cos_sq _, ?_⟩
  unfold Blh.gen_mtx_rpm
  simp

/-- C9: the two rotation matrices are orthonormal, over the reals: for every angle
`gen_mtx_rz` and for every object `gen_mtx_rpm` return a matrix `M` with
`M * M^T = I` and `det M = 1`. -/
theorem rotation_matrices_orthonormal :
    (∀ ang : ℝ, Blh.gen_mtx_rz ang * (Blh.gen_mtx_rz ang).transpose = 1
        ∧ (Blh.gen_mtx_rz ang).det = 1)
      ∧ (∀ o : Blh, o.gen_mtx_rpm * o.gen_mtx_rpm.transpose = 1
        ∧ o.gen_mtx_rpm.det = 1) := by
  constructor
  · intro ang
    have hsc := Real.sin_sq_add_cos_sq ang
    obtain ⟨e00, e01, e02, e10, e11, e12, e20, e21, e22⟩ := rz_entries ang
    constructor
    · ext i j
      rw [mul_transpose_apply3]
      fin_cases i <;> fin_cases j <;>
        simp [e00, e01, e02, e10, e11, e12, e20, e21, e22, Matrix.one_apply] <;>
        nlinarith [hsc]
    · rw [Matrix.det_fin_three]
      simp only [e00, e01, e02, e10, e11, e12, e20, e21, e22]
      nlinarith [hsc]
  · intro o
    obtain ⟨sa, ca, sb, cb, sc, cc, ha, hb, hc, e00, e01, e02, e10, e11, e12, e20, e21, e22⟩ :=
      rpm_entries o
    constructor
    · ext i j
      rw [mul_transpose_apply3]
      fin_cases i <;> fin_cases j <;>
        simp only [Fin.zero_eta, Fin.mk_one, Fin.reduceFinMk, e00, e01, e02, e10, e11, e12,
          e20, e21, e22, Matrix.one_apply_eq, Matrix.one_apply_ne, ne_eq, Fin.isValue,
          Fin.reduceEq, not_false_eq_true, zero_ne_one, one_ne_zero]
      · linear_combination ca ^ 2 * hc + ha
      · linear_combination (ca * sb * sa) * hc
      · linear_combination (-ca * cb * sa) * hc
      · linear_combination (ca * sb * sa) * hc
      · linear_combination (cb ^ 2 + sb ^ 2 * sa ^ 2) * hc + sb ^ 2 * ha + hb
      · linear_combination (cb * sb * (1 - sa ^ 2)) * hc - (cb * sb) * ha
      · linear_combination (-ca * cb * sa) * hc
      · linear_combination (cb * sb * (1 - sa ^ 2)) * hc - (cb * sb) * ha
      · linear_combination (sb ^ 2 + cb ^ 2 * sa ^ 2) * hc + cb ^ 2 * ha + hb
    · rw [Matrix.det_fin_three]
      simp only [e00, e01, e02, e10, e11, e12, e20, e21, e22]
      linear_combination ((sb ^ 2 + cb ^ 2) * (sc ^ 2 + cc ^ 2)) * ha
        + (sc ^ 2 + cc ^ 2) * hb + hc

/-- C10: the sidereal matrix is `[[cos, sin, 0], [-sin, cos, 0], [0, 0, 1]]`,
`apply_mtx` is the row-by-column product of a matrix and a vector, and so
`apply_mtx(gen_mtx_rz(g), (x, y, z))` is
`(x cos g + y sin g, -x sin g + y cos g, z)`. -/
theorem apply_mtx_gen_mtx_rz :
    (∀ (g : ℝ) (r : Coord), Blh.apply_mtx (Blh.gen_mtx_rz g) r
        = ⟨r.x * Real.cos g + r.y * Real.sin g, -r.x * Real.sin g + r.y * Real.cos g, r.z⟩)
      ∧ (∀ g : ℝ, Blh.gen_mtx_rz g
        = !![Real.cos g, Real.sin g, 0; -Real.sin g, Real.cos g, 0; 0, 0, 1])
      ∧ (∀ (M : Matrix (Fin 3) (Fin 3) ℝ) (r : Coord),
          ![(Blh.apply_mtx M r).x, (Blh.apply_mtx M r).y, (Blh.apply_mtx M r).z]
            = M.mulVec ![r.x, r.y, r.z]) := by
  refine ⟨?_, ?_, ?_⟩
  · intro g r
    unfold Blh.apply_mtx Blh.gen_mtx_rz
    simp
    constructor <;> ring
  · intro g
    rfl
  · intro M r
    unfold Blh.apply_mtx
    ext i
    fin_cases i <;> simp [Matrix.mulVec, Matrix.dotProduct, Fin.sum_univ_three]

/-! ## Iterations of the loops of ts_add -/

/-- The fractional part left by the truncation lies strictly between -1 and 1. -/
theorem sub_truncToInt_bounds (s : ℚ) :
    -1 < s - (truncToInt s : ℚ) ∧ s - (truncToInt s : ℚ) < 1 := by
  unfold truncToInt
  split
  · have h1 := Int.floor_le s
    have h2 := Int.lt_floor_add_one s
    constructor <;> linarith
  · have h1 := Int.le_ceil s
    have h2 := Int.ceil_lt_add_one s
    constructor <;> linarith

/-- Truncation keeps strict integer bounds on either side of zero. -/
theorem truncToInt_bounds (q : ℚ) (a b : Int) (ha : a < 0) (hb : 0 < b)
    (h1 : (a : ℚ) < q) (h2 : q < (b : ℚ)) : a < truncToInt q ∧ truncToInt q < b := by
  unfold truncToInt
  split
  · rename_i h0
    have h3 : (0 : Int) ≤ ⌊q⌋ := Int.floor_nonneg.mpr h0
    exact ⟨by omega, Int.floor_lt.mpr h2⟩
  · rename_i h0
    push_neg at h0
    have h3 : ⌈q⌉ ≤ 0 := Int.ceil_le.mpr (by exact_mod_cast le_of_lt h0)
    exact ⟨Int.lt_ceil.mpr h1, by omega⟩

/-- Truncation toward zero does not increase the absolute value of what it leaves. -/
theorem abs_sub_truncToInt_le (s : ℚ) : |s - (truncToInt s : ℚ)| ≤ |s| := by
  unfold truncToInt
  split
  · rename_i h
    have h1 := Int.floor_le s
    have h3 : (0 : ℚ) ≤ ((⌊s⌋ : Int) : ℚ) := by exact_mod_cast Int.floor_nonneg.mpr h
    rw [abs_of_nonneg (by linarith), abs_of_nonneg h]
    linarith
  · rename_i h
    push_neg at h
    have h1 := Int.le_ceil s
    have h3 : ((⌈s⌉ : Int) : ℚ) ≤ 0 := by
      exact_mod_cast Int.ceil_le.mpr (by exact_mod_cast le_of_lt h)
    rw [abs_of_nonpos (by linarith), abs_of_neg h]
    linarith

/-- For a `double` `s` the difference `s - int(s)` is a `double` (the subtraction is
exact), and it is at most `1 - 2^-53` in absolute value. -/
theorem sub_truncToInt_double (s : ℚ) (hd : binary64 s = s) :
    binary64 (s - (truncToInt s : ℚ)) = s - (truncToInt s : ℚ)
      ∧ |s - (truncToInt s : ℚ)| ≤ 1 - 1 / 9007199254740992 := by
  obtain ⟨e, m, he, hm, hlt⟩ := binary64_form s hd
  have hle := abs_sub_truncToInt_le s
  obtain ⟨f1, f2⟩ := sub_truncToInt_bounds s
  by_cases h52 : 52 ≤ e
  · obtain ⟨d, hd2⟩ := Int.eq_ofNat_of_zero_le (by omega : 0 ≤ e - 52)
    have hs : s = ((m * 2 ^ d : Int) : ℚ) := by
      rw [hm, hd2, zpow_natCast]; push_cast; ring
    rw [hs, truncToInt_intCast, sub_self]
    exact ⟨by simp [binary64], by norm_num⟩
  · push_neg at h52
    obtain ⟨d, hd2⟩ := Int.eq_ofNat_of_zero_le (by omega : 0 ≤ 52 - e)
    have hpow : (2 : ℚ) ^ d * (2 : ℚ) ^ (e - 52) = 1 := by
      rw [← zpow_natCast, ← hd2, two_zpow_mul, show 52 - e + (e - 52) = 0 by ring,
        zpow_zero]
    have hform : s - (truncToInt s : ℚ)
        = ((m - truncToInt s * 2 ^ d : Int) : ℚ) * (2 : ℚ) ^ (e - 52) := by
      push_cast
      rw [sub_mul, mul_assoc, hpow, mul_one, ← hm]
    constructor
    · rw [hform]
      apply binary64_grid e _ he
      rw [← hform]
      exact lt_of_le_of_lt hle hlt
    · by_cases h2 : e ≤ -2
      · have h3 : (2 : ℚ) ^ (e + 1) ≤ (2 : ℚ) ^ (-1 : Int) :=
          zpow_le_zpow_right₀ (by norm_num) (by omega)
        have h4 : (2 : ℚ) ^ (-1 : Int) = 1 / 2 := by norm_num
        have := lt_of_le_of_lt hle hlt
        rw [h4] at h3
        linarith
      · push_neg at h2
        have hd3 : d ≤ 53 := by omega
        have hp : (0 : ℚ) < (2 : ℚ) ^ d := by positivity
        have hp53 : (2 : ℚ) ^ d ≤ 9007199254740992 := by
          have : (2 : ℚ) ^ d ≤ (2 : ℚ) ^ 53 := pow_le_pow_right₀ (by norm_num) hd3
          norm_num at this
          exact this
        have hinv : (2 : ℚ) ^ (e - 52) = 1 / (2 : ℚ) ^ d := by
          field_simp
          rw [mul_comm]
          exact hpow
        set n : Int := m - truncToInt s * 2 ^ d with hn
        have habs : |(n : ℚ)| < (2 : ℚ) ^ d := by
          have h5 : |s - (truncToInt s : ℚ)| < 1 := abs_lt.mpr ⟨f1, f2⟩
          rw [hform, abs_mul, abs_of_pos (two_zpow_pos _), hinv] at h5
          rw [mul_one_div, div_lt_one hp] at h5
          exact h5
        have habs2 : |n| < 2 ^ d := by
          have : ((|n| : Int) : ℚ) < ((2 ^ d : Int) : ℚ) := by
            push_cast
            exact habs
          exact_mod_cast this
        have habs3 : |(n : ℚ)| ≤ (2 : ℚ) ^ d - 1 := by
          have : |n| ≤ 2 ^ d - 1 := by omega
          have : ((|n| : Int) : ℚ) ≤ ((2 ^ d - 1 : Int) : ℚ) := by exact_mod_cast this
          push_cast at this
          exact this
        rw [hform, abs_mul, abs_of_pos (two_zpow_pos _), hinv, mul_one_div,
          div_le_iff₀ hp]
        have h6 : (1 - 1 / 9007199254740992 : ℚ) * (2 : ℚ) ^ d
            = (2 : ℚ) ^ d - (2 : ℚ) ^ d / 9007199254740992 := by ring
        rw [h6]
        have h7 : (2 : ℚ) ^ d / 9007199254740992 ≤ 1 := by
          rw [div_le_one (by norm_num)]
          exact hp53
        linarith

/-- The rounded product `(s - int(s)) * kE9` stays a unit in the last place inside
`(-10^9, 10^9)`. -/
theorem binary64_prod_bounds (f : ℚ) (hf : |f| ≤ 1 - 1 / 9007199254740992) :
    -(1000000000 - 1 / 8388608) ≤ binary64 (f * kE9)
      ∧ binary64 (f * kE9) ≤ 1000000000 - 1 / 8388608 := by
  obtain ⟨f1, f2⟩ := abs_le.mp hf
  unfold kE9
  by_cases hb : |f * 1000000000| < 536870912
  · have h1 := binary64_le_grid (f * 1000000000) 28 9007199254740992 (by norm_num)
      (by norm_num; exact hb) (by norm_num; linarith [(abs_lt.mp hb).2])
    have h2 := grid_le_binary64 (f * 1000000000) 28 (-9007199254740992) (by norm_num)
      (by norm_num; exact hb) (by norm_num; linarith [(abs_lt.mp hb).1])
    norm_num at h1 h2
    constructor <;> linarith
  · push_neg at hb
    have hlt : |f * 1000000000| < 1073741824 := by
      rw [abs_lt]; constructor <;> linarith
    have h1 := binary64_of_binade (f * 1000000000) 29 (by norm_num)
      (by norm_num; exact hb) (by norm_num; exact hlt)
    rw [h1]
    have h3 := roundHalfEven_le (f * 1000000000 * (2 : ℚ) ^ ((52 : Int) - 29))
      (8388608000000000 - 1) (by norm_num; linarith)
    have h4 := le_roundHalfEven (f * 1000000000 * (2 : ℚ) ^ ((52 : Int) - 29))
      (-(8388608000000000 - 1)) (by norm_num; linarith)
    have h5 : (roundHalfEven (f * 1000000000 * (2 : ℚ) ^ ((52 : Int) - 29)) : ℚ)
        ≤ ((8388608000000000 - 1 : Int) : ℚ) := by exact_mod_cast h3
    have h6 : ((-(8388608000000000 - 1) : Int) : ℚ)
        ≤ (roundHalfEven (f * 1000000000 * (2 : ℚ) ^ ((52 : Int) - 29)) : ℚ) := by
      exact_mod_cast h4
    norm_num at h5 h6 ⊢
    constructor <;> linarith

/-- The value of `tv_nsec` before the loops lies strictly between `-10^9` and
`2 * 10^9` when `s` is a `double`. -/
theorem ts_add_nsec0_bounds (ts : Timespec) (s : ℚ) (hd : binary64 s = s)
    (hns : 0 ≤ ts.tv_nsec ∧ ts.tv_nsec < 1000000000) :
    -1000000000 < ts_add_nsec0 ts s ∧ ts_add_nsec0 ts s < 2000000000 := by
  obtain ⟨_, fb⟩ := sub_truncToInt_double s hd
  have n1 : (0 : ℚ) ≤ (ts.tv_nsec : ℚ) := by exact_mod_cast hns.1
  have n2 : (ts.tv_nsec : ℚ) ≤ 999999999 := by
    have : ts.tv_nsec ≤ 999999999 := by omega
    exact_mod_cast this
  have hn : binary64 (ts.tv_nsec : ℚ) = (ts.tv_nsec : ℚ) :=
    binary64_intCast _ (by rw [abs_lt]; constructor <;> linarith)
  unfold ts_add_nsec0
  rw [hn]
  obtain ⟨p1, p2⟩ := binary64_prod_bounds (binary64 (s - (truncToInt s : ℚ)))
    (by rw [(sub_truncToInt_double s hd).1]; exact fb)
  generalize binary64 (binary64 (s - (truncToInt s : ℚ)) * kE9) = p at p1 p2
  have habs : |(ts.tv_nsec : ℚ) + p| < 2147483648 := by
    rw [abs_lt]; constructor <;> linarith
  have u := binary64_le_grid ((ts.tv_nsec : ℚ) + p) 30 (1999999999 * 4194304)
    (by norm_num) (by norm_num; exact habs) (by norm_num; linarith)
  have l : -(1000000000 - 1 / 8388608) ≤ binary64 ((ts.tv_nsec : ℚ) + p) := by
    by_cases h0 : 0 ≤ (ts.tv_nsec : ℚ) + p
    · have := grid_le_binary64 ((ts.tv_nsec : ℚ) + p) 30 0
        (by norm_num) (by norm_num; exact habs) (by norm_num; exact h0)
      norm_num at this
      linarith
    · push_neg at h0
      have := grid_le_binary64 ((ts.tv_nsec : ℚ) + p) 29 (-(8388608000000000 - 1))
        (by norm_num) (by norm_num; rw [abs_lt]; constructor <;> linarith)
        (by norm_num; linarith)
      norm_num at this ⊢
      linarith
  norm_num at u
  apply truncToInt_bounds _ _ _ (by norm_num) (by norm_num)
  · push_cast; linarith
  · push_cast; linarith

theorem ts_add_carry_iters_of_le (n : Int) (h : n ≤ 1000000000) :
    ts_add_carry_iters n = 0 ∧ ∀ sec, ts_add_carry sec n = (sec, n) := by
  have hq : ¬ kE9 < (n : ℚ) := by
    unfold kE9
    have : (n : ℚ) ≤ ((1000000000 : Int) : ℚ) := by exact_mod_cast h
    push_cast at this
    linarith
  constructor
  · rw [ts_add_carry_iters, if_neg hq]
  · intro sec
    rw [ts_add_carry, if_neg hq]

theorem ts_add_borrow_iters_of_nonneg (n : Int) (h : 0 ≤ n) :
    ts_add_borrow_iters n = 0 := by
  rw [ts_add_borrow_iters, if_neg (by omega)]

/-- C15: for a timespec with `0 <= tv_nsec < 10^9` and a finite delta `s` (a `double`:
`binary64 s = s`) with `|s| < 2^31`, the value of `tv_nsec` before the loops lies strictly
between `-10^9` and `2 * 10^9`, and the two loops of `ts_add` (total functions, so they
terminate) run at most one iteration together. -/
theorem ts_add_at_most_one_iteration (ts : Timespec) (s : ℚ) (hd : binary64 s = s)
    (hns : 0 ≤ ts.tv_nsec ∧ ts.tv_nsec < 1000000000) (_hb : |s| < 2147483648) :
    (-1000000000 < ts_add_nsec0 ts s ∧ ts_add_nsec0 ts s < 2000000000)
      ∧ ts_add_iters ts s ≤ 1 := by
  have hb := ts_add_nsec0_bounds ts s hd hns
  refine ⟨hb, ?_⟩
  obtain ⟨b1, b2⟩ := hb
  unfold ts_add_iters
  simp only []
  generalize ts_add_nsec0 ts s = n at b1 b2
  generalize ts.tv_sec + truncToInt s = sec
  by_cases hc : n ≤ 1000000000
  · obtain ⟨c0, c1⟩ := ts_add_carry_iters_of_le n hc
    rw [c0, c1]
    simp only [zero_add]
    by_cases hn : n < 0
    · rw [ts_add_borrow_iters, if_pos hn]
      have h2 : (n : ℚ) + kE9 = ((n + 1000000000 : Int) : ℚ) := by simp [kE9]
      rw [h2, truncToInt_intCast, ts_add_borrow_iters_of_nonneg _ (by omega)]
    · rw [ts_add_borrow_iters_of_nonneg _ (by omega)]
      omega
  · have hq : kE9 < (n : ℚ) := by
      unfold kE9
      have : ((1000000000 : Int) : ℚ) < (n : ℚ) := by exact_mod_cast (by omega : (1000000000 : Int) < n)
      push_cast at this
      linarith
    have h2 : (n : ℚ) - kE9 = ((n - 1000000000 : Int) : ℚ) := by simp [kE9]
    obtain ⟨c0, c1⟩ := ts_add_carry_iters_of_le (n - 1000000000) (by omega)
    rw [ts_add_carry_iters, if_pos hq, ts_add_carry, if_pos hq, h2, truncToInt_intCast,
      c0, c1, ts_add_borrow_iters_of_nonneg _ (by omega)]

/-- Witness of C15: `ts_add` applied to `(tv_sec 10, tv_nsec 100)` and `s = -0.5`. -/
theorem ts_add_at_most_one_iteration_witness :
    binary64 (-0.5) = -0.5
      ∧ ((0 : Int) ≤ 100 ∧ (100 : Int) < 1000000000) ∧ |(-0.5 : ℚ)| < 2147483648
      ∧ (-1000000000 < ts_add_nsec0 ⟨10, 100⟩ (-0.5)
          ∧ ts_add_nsec0 ⟨10, 100⟩ (-0.5) < 2000000000)
      ∧ ts_add_iters ⟨10, 100⟩ (-0.5) ≤ 1 :=
  ⟨binary64_neg_half, by decide, by norm_num [abs_lt],
    ts_add_at_most_one_iteration ⟨10, 100⟩ (-0.5) binary64_neg_half (by decide)
      (by norm_num [abs_lt])⟩

/-- The carry loop adds its number of iterations to `tv_sec` and takes as many times
`10^9` from `tv_nsec`. -/
theorem ts_add_carry_eq_iters (sec nsec : Int) :
    ts_add_carry sec nsec
      = (sec + ts_add_carry_iters nsec, nsec - 1000000000 * ts_add_carry_iters nsec) := by
  induction sec, nsec using ts_add_carry.induct with
  | case1 sec nsec h ih =>
    rw [ts_add_carry, if_pos h, ts_add_carry_iters, if_pos h, ih]
    have h2 : (nsec : ℚ) - kE9 = ((nsec - 1000000000 : Int) : ℚ) := by simp [kE9]
    rw [h2, truncToInt_intCast]
    ext <;> simp <;> ring
  | case2 sec nsec h =>
    rw [ts_add_carry, if_neg h, ts_add_carry_iters, if_neg h]
    simp

/-- The borrow loop takes its number of iterations from `tv_sec` and adds as many times
`10^9` to `tv_nsec`. -/
theorem ts_add_borrow_eq_iters (sec nsec : Int) :
    ts_add_borrow sec nsec
      = (sec - ts_add_borrow_iters nsec, nsec + 1000000000 * ts_add_borrow_iters nsec) := by
  induction sec, nsec using ts_add_borrow.induct with
  | case1 sec nsec h ih =>
    rw [ts_add_borrow, if_pos h, ts_add_borrow_iters, if_pos h, ih]
    have h2 : (nsec : ℚ) + kE9 = ((nsec + 1000000000 : Int) : ℚ) := by simp [kE9]
    rw [h2, truncToInt_intCast]
    ext <;> simp <;> ring
  | case2 sec nsec h =>
    rw [ts_add_borrow, if_neg h, ts_add_borrow_iters, if_neg h]
    simp

/-- The function `ts_add` runs the two loops on the value `ts_add_nsec0`. -/
theorem ts_add_eq_loops (ts : Timespec) (s : ℚ) :
    ts_add ts s
      = { tv_sec := (ts_add_borrow
              (ts_add_carry (ts.tv_sec + truncToInt s) (ts_add_nsec0 ts s)).1
              (ts_add_carry (ts.tv_sec + truncToInt s) (ts_add_nsec0 ts s)).2).1
          tv_nsec := (ts_add_borrow
              (ts_add_carry (ts.tv_sec + truncToInt s) (ts_add_nsec0 ts s)).1
              (ts_add_carry (ts.tv_sec + truncToInt s) (ts_add_nsec0 ts s)).2).2 } :=
  rfl

/-! ## ts_add: the total number of nanoseconds -/

/-- The result of `ts_add` when the value of `tv_nsec` before the loops is in
`[0, 10^9]`: neither loop runs. -/
theorem ts_add_eval (ts : Timespec) (s : ℚ) (t n : Int) (f p q : ℚ)
    (h1 : truncToInt s = t) (h2 : binary64 (s - (t : ℚ)) = f)
    (h3 : binary64 (f * kE9) = p)
    (h4 : binary64 (binary64 (ts.tv_nsec : ℚ) + p) = q) (h5 : truncToInt q = n)
    (h6 : 0 ≤ n) (h7 : n ≤ 1000000000) :
    ts_add ts s = ⟨ts.tv_sec + t, n⟩ := by
  unfold ts_add
  simp only [h1, h2, h3, h4, h5]
  rw [(ts_add_carry_iters_of_le n h7).2, ts_add_borrow, if_neg (by omega)]

/-- The literal `4.35` as a `double`. -/
theorem binary64_4_35 : binary64 4.35 = 2448832297382707 / 562949953421312 := by
  have := binary64_of_near 4.35 2 4897664594765414 (by norm_num)
    (by norm_num [abs_le, le_abs]) (by norm_num [abs_lt]) (by norm_num) (by norm_num)
  rw [this]
  norm_num

/-- The literal `32.184` as a `double`. -/
theorem kTtTai_eq : kTtTai = 1132373831306969 / 35184372088832 := by
  unfold kTtTai
  have := binary64_of_near 32.184 5 4529495325227876 (by norm_num)
    (by norm_num [abs_le, le_abs]) (by norm_num [abs_lt]) (by norm_num) (by norm_num)
  rw [this]
  norm_num

/-- C2, on the code: the delta `4.35` s is 4350000000 ns, but `ts_add` applied to
`(tv_sec 0, tv_nsec 0)` and the `double` `4.35` returns `(4, 349999999)`, one nanosecond
less: `4.35 - 4` is `0.34999999999999964` in binary64, its product with `kE9` is rounded
to `349999999.99999964` and the conversion to `long` discards the fraction, so the total
is not the total of the argument plus `k = 4350000000`. The same happens in `tai2tt`,
which adds `kTtTai = 32.184`: 183999999 ns instead of 184000000. -/
theorem ts_add_loses_a_nanosecond :
    ts_add ⟨0, 0⟩ (binary64 4.35) = ⟨4, 349999999⟩
      ∧ (ts_add ⟨0, 0⟩ (binary64 4.35)).tv_sec * 1000000000
            + (ts_add ⟨0, 0⟩ (binary64 4.35)).tv_nsec
          ≠ 0 * 1000000000 + 0 + 4350000000
      ∧ tai2tt ⟨1623283237, 0⟩ = ⟨1623283269, 183999999⟩ := by
  have h435 : ts_add ⟨0, 0⟩ (binary64 4.35) = ⟨4, 349999999⟩ := by
    rw [binary64_4_35]
    have h := ts_add_eval ⟨0, 0⟩ (2448832297382707 / 562949953421312) 4 349999999
      (197032483697459 / 562949953421312) (2936012799999997 / 8388608)
      (2936012799999997 / 8388608)
      (by norm_num [truncToInt, Int.floor_eq_iff])
      (by
        have := binary64_grid (-2) 6305039478318688 (by norm_num) (by norm_num [abs_lt])
        norm_num at this ⊢
        exact this)
      (by
        have := binary64_of_near (197032483697459 / 562949953421312 * kE9) 28
          5872025599999994 (by norm_num)
          (by norm_num [kE9, abs_le, le_abs]) (by norm_num [kE9, abs_lt])
          (by norm_num [kE9]) (by norm_num [kE9])
        rw [this]
        norm_num)
      (by
        have := binary64_grid 28 5872025599999994 (by norm_num) (by norm_num [abs_lt])
        norm_num [binary64_zero] at this ⊢
        exact this)
      (by norm_num [truncToInt, Int.floor_eq_iff]) (by norm_num) (by norm_num)
    simpa using h
  refine ⟨h435, by rw [h435]; decide, ?_⟩
  unfold tai2tt
  rw [kTtTai_eq]
  have h := ts_add_eval ⟨1623283237, 0⟩ (1132373831306969 / 35184372088832) 32 183999999
    (6473924464345 / 35184372088832) (1543503871999979 / 8388608)
    (1543503871999979 / 8388608)
    (by norm_num [truncToInt, Int.floor_eq_iff])
    (by
      have := binary64_grid (-3) 6629298651489280 (by norm_num) (by norm_num [abs_lt])
      norm_num at this ⊢
      exact this)
    (by
      have := binary64_of_near (6473924464345 / 35184372088832 * kE9) 27
        6174015487999916 (by norm_num)
        (by norm_num [kE9, abs_le, le_abs]) (by norm_num [kE9, abs_lt])
        (by norm_num [kE9]) (by norm_num [kE9])
      rw [this]
      norm_num)
    (by
      have := binary64_grid 27 6174015487999916 (by norm_num) (by norm_num [abs_lt])
      norm_num [binary64_zero] at this ⊢
      exact this)
    (by norm_num [truncToInt, Int.floor_eq_iff]) (by norm_num) (by norm_num)
  simpa using h

/-- The conversion to `long` changes a value by less than one. -/
theorem abs_truncToInt_sub_lt (q : ℚ) : |(truncToInt q : ℚ) - q| < 1 := by
  obtain ⟨f1, f2⟩ := sub_truncToInt_bounds q
  rw [abs_lt]
  constructor <;> linarith

/-- C2, amended: for a timespec with `0 <= tv_nsec < 10^9` and a `double` `s`
(`binary64 s = s`) with `|s| < 2^31`, the total `tv_sec * 10^9 + tv_nsec` of the result of
`ts_add` differs from the total of the argument plus `s * 10^9` by less than
`1 + 2^-22` nanoseconds, and when `s` is exactly a whole number `k` of nanoseconds
(`s = k / 10^9`) the total grows by exactly `k`. The loops never change the total. -/
theorem ts_add_total (ts : Timespec) (s : ℚ) (hd : binary64 s = s)
    (hns : 0 ≤ ts.tv_nsec ∧ ts.tv_nsec < 1000000000) (_hb : |s| < 2147483648) :
    |(((ts_add ts s).tv_sec * 1000000000 + (ts_add ts s).tv_nsec : Int) : ℚ)
        - (((ts.tv_sec * 1000000000 + ts.tv_nsec : Int) : ℚ) + s * 1000000000)|
        < 1 + 1 / 4194304
      ∧ ∀ k : Int, s = (k : ℚ) / 1000000000 →
          (ts_add ts s).tv_sec * 1000000000 + (ts_add ts s).tv_nsec
            = ts.tv_sec * 1000000000 + ts.tv_nsec + k := by
  obtain ⟨fe, fb⟩ := sub_truncToInt_double s hd
  have n1 : (0 : ℚ) ≤ (ts.tv_nsec : ℚ) := by exact_mod_cast hns.1
  have n2 : (ts.tv_nsec : ℚ) ≤ 999999999 := by
    have : ts.tv_nsec ≤ 999999999 := by omega
    exact_mod_cast this
  have hn : binary64 (ts.tv_nsec : ℚ) = (ts.tv_nsec : ℚ) :=
    binary64_intCast _ (by rw [abs_lt]; constructor <;> linarith)
  have htot : (ts_add ts s).tv_sec * 1000000000 + (ts_add ts s).tv_nsec
      = (ts.tv_sec + truncToInt s) * 1000000000 + ts_add_nsec0 ts s := by
    unfold ts_add ts_add_nsec0
    simp only []
    rw [ts_add_borrow_total, ts_add_carry_total]
  rw [htot]
  constructor
  · obtain ⟨p1, p2⟩ := binary64_prod_bounds (s - (truncToInt s : ℚ)) fb
    obtain ⟨g1, g2⟩ := abs_le.mp fb
    have e1 := binary64_error ((s - (truncToInt s : ℚ)) * kE9) 29 (by norm_num)
      (by norm_num [kE9]; rw [abs_lt]; constructor <;> linarith)
    unfold ts_add_nsec0
    rw [hn, fe]
    generalize binary64 ((s - (truncToInt s : ℚ)) * kE9) = p at p1 p2 e1
    have e2 := binary64_error ((ts.tv_nsec : ℚ) + p) 30 (by norm_num)
      (by norm_num; rw [abs_lt]; constructor <;> linarith)
    have e3 := abs_truncToInt_sub_lt (binary64 ((ts.tv_nsec : ℚ) + p))
    generalize binary64 ((ts.tv_nsec : ℚ) + p) = q at e2 e3
    generalize truncToInt q = n at e3
    norm_num [kE9] at e1 e2
    rw [abs_le] at e1 e2
    rw [abs_lt] at e3 ⊢
    push_cast
    constructor <;> linarith
  · intro k hk
    have hx : (s - (truncToInt s : ℚ)) * kE9
        = ((k - truncToInt s * 1000000000 : Int) : ℚ) := by
      rw [hk]; simp [kE9]; ring
    obtain ⟨g1, g2⟩ := abs_le.mp fb
    have hxb : |((k - truncToInt s * 1000000000 : Int) : ℚ)| < 1000000000 := by
      rw [← hx, abs_lt]; unfold kE9; constructor <;> linarith
    have hp : binary64 (((k - truncToInt s * 1000000000 : Int) : ℚ))
        = ((k - truncToInt s * 1000000000 : Int) : ℚ) :=
      binary64_intCast _ (by linarith)
    obtain ⟨x1, x2⟩ := abs_lt.mp hxb
    have hsum : (ts.tv_nsec : ℚ) + ((k - truncToInt s * 1000000000 : Int) : ℚ)
        = ((ts.tv_nsec + (k - truncToInt s * 1000000000) : Int) : ℚ) := by push_cast; ring
    have hq : binary64 (((ts.tv_nsec + (k - truncToInt s * 1000000000) : Int) : ℚ))
        = ((ts.tv_nsec + (k - truncToInt s * 1000000000) : Int) : ℚ) :=
      binary64_intCast _ (by rw [← hsum, abs_lt]; constructor <;> linarith)
    unfold ts_add_nsec0
    rw [hn, fe, hx, hp, hsum, hq, truncToInt_intCast]
    ring

/-- The `double` that the literal `4.35` denotes is a `double`. -/
theorem binary64_4_35_double :
    binary64 (2448832297382707 / 562949953421312)
      = 2448832297382707 / 562949953421312 := by
  have := binary64_grid 2 4897664594765414 (by norm_num) (by norm_num [abs_lt])
  norm_num at this ⊢
  exact this

/-- Witness of C2: the `double` `4.35` added to `(tv_sec 0, tv_nsec 0)`. -/
theorem ts_add_total_witness :
    binary64 (2448832297382707 / 562949953421312) = 2448832297382707 / 562949953421312
      ∧ ((0 : Int) ≤ 0 ∧ (0 : Int) < 1000000000)
      ∧ |(2448832297382707 / 562949953421312 : ℚ)| < 2147483648
      ∧ (|(((ts_add ⟨0, 0⟩ (2448832297382707 / 562949953421312)).tv_sec * 1000000000
              + (ts_add ⟨0, 0⟩ (2448832297382707 / 562949953421312)).tv_nsec : Int) : ℚ)
            - (((0 * 1000000000 + 0 : Int) : ℚ)
                + 2448832297382707 / 562949953421312 * 1000000000)|
            < 1 + 1 / 4194304
          ∧ ∀ k : Int, (2448832297382707 / 562949953421312 : ℚ) = (k : ℚ) / 1000000000 →
              (ts_add ⟨0, 0⟩ (2448832297382707 / 562949953421312)).tv_sec * 1000000000
                  + (ts_add ⟨0, 0⟩ (2448832297382707 / 562949953421312)).tv_nsec
                = 0 * 1000000000 + 0 + k) :=
  ⟨binary64_4_35_double, by decide, by norm_num [abs_lt],
    ts_add_total ⟨0, 0⟩ (2448832297382707 / 562949953421312) binary64_4_35_double
      (by decide) (by norm_num [abs_lt])⟩

/-! ## jd2jcn and the ellipsoid constants -/

/-- C14: `jd2jcn(jd) = (jd - 2451545) / 36525` for every `jd`, and
`jd2jcn(2451545.0) = 0.0`. -/
theorem jd2jcn_formula :
    (∀ jd : ℚ, jd2jcn jd = (jd - 2451545) / 36525) ∧ jd2jcn 2451545.0 = 0.0 := by
  constructor
  · intro jd
    unfold jd2jcn kJ2k kDayJc
    norm_num
  · unfold jd2jcn kJ2k kDayJc
    norm_num

/-- C18: with `a = 6378137` and `f = 1 / 298.257223563`, exactly over the rationals:
`kB = a (1 - f)`, `kE2 = f (2 - f) = (a^2 - kB^2) / a^2`,
`kEd2 = kE2 a^2 / kB^2 = (a^2 - kB^2) / kB^2`, `0 < kE2 < 1` and `0 < kB < a`. -/
theorem ellipsoid_constants :
    kA = 6378137 ∧ k1F = 298.257223563
      ∧ kB = kA * (1 - 1 / k1F)
      ∧ kE2 = (1 / k1F) * (2 - 1 / k1F)
      ∧ kE2 = (kA ^ 2 - kB ^ 2) / kA ^ 2
      ∧ kEd2 = kE2 * kA ^ 2 / kB ^ 2
      ∧ kEd2 = (kA ^ 2 - kB ^ 2) / kB ^ 2
      ∧ (0 < kE2 ∧ kE2 < 1) ∧ (0 < kB ∧ kB < kA) := by
  have hA : kA ≠ 0 := by unfold kA; norm_num
  have hB : kB ≠ 0 := by unfold kB kA k1F; norm_num
  have e1 : kE2 = (kA ^ 2 - kB ^ 2) / kA ^ 2 := by
    rw [eq_div_iff (pow_ne_zero 2 hA)]
    unfold kE2 kB
    ring
  refine ⟨rfl, rfl, rfl, rfl, e1, ?_, ?_, ?_, ?_⟩
  · unfold kEd2
    ring
  · unfold kEd2
    rw [e1]
    field_simp
    ring
  · unfold kE2 k1F
    norm_num
  · unfold kB kA k1F
    norm_num

/-! ## calc_gmst, apply_kinematic and the chain of rotations -/

theorem kPi2_pos : 0 < kPi2 := by
  rw [kPi2_eq]
  positivity

/-- For a positive `y`, `fmod(x, y)` is `x` minus an integer multiple of `y`, lies
strictly between `-y` and `y`, and has the sign of `x`. -/
theorem fmod_spec (x y : ℝ) (hy : 0 < y) :
    fmod x y = x - (truncReal (x / y) : ℝ) * y
      ∧ -y < fmod x y ∧ fmod x y < y
      ∧ (0 ≤ x → 0 ≤ fmod x y) ∧ (x < 0 → fmod x y ≤ 0) := by
  have hx : x = x / y * y := by field_simp
  refine ⟨rfl, ?_⟩
  unfold fmod truncReal
  split
  · rename_i h0
    have h1 := Int.floor_le (x / y)
    have h2 := Int.lt_floor_add_one (x / y)
    have hx0 : 0 ≤ x := by
      rw [hx]; exact mul_nonneg h0 (le_of_lt hy)
    have e : x - (⌊x / y⌋ : ℝ) * y = (x / y - ⌊x / y⌋) * y := by
      rw [sub_mul, ← hx]
    rw [e]
    refine ⟨?_, ?_, ?_, ?_⟩
    · nlinarith
    · nlinarith
    · intro _; nlinarith
    · intro h; linarith
  · rename_i h0
    push_neg at h0
    have h1 := Int.le_ceil (x / y)
    have h2 := Int.ceil_lt_add_one (x / y)
    have hx0 : x < 0 := by
      rw [hx]; exact mul_neg_of_neg_of_pos h0 hy
    have e : x - (⌈x / y⌉ : ℝ) * y = (x / y - ⌈x / y⌉) * y := by
      rw [sub_mul, ← hx]
    rw [e]
    refine ⟨?_, ?_, ?_, ?_⟩
    · nlinarith
    · nlinarith
    · intro h; linarith
    · intro _; nlinarith

/-- The loop `while (v < 0.0) { v += p; }` leaves a non-negative value alone and runs
once from a value in `[-p, 0)`. -/
theorem whileNegAdd_eq (p : ℝ) (hp : 0 < p) (v : ℝ) :
    (0 ≤ v → whileNegAdd p hp v = v)
      ∧ (v < 0 → -p ≤ v → whileNegAdd p hp v = v + p) := by
  constructor
  · intro h
    rw [whileNegAdd, if_neg (not_lt.mpr h)]
  · intro h1 h2
    rw [whileNegAdd, if_pos h1, whileNegAdd, if_neg (by linarith)]

/-- The loop `while (v > p) { v -= p; }` leaves a value not above `p` alone. -/
theorem whileGtSub_eq (p : ℝ) (hp : 0 < p) (v : ℝ) (h : v ≤ p) : whileGtSub p hp v = v := by
  rw [whileGtSub, if_neg (by linarith)]

theorem calc_gmst_eq (o : Blh) :
    o.calc_gmst = whileGtSub kPi2 kPi2_pos
      (whileNegAdd kPi2 kPi2_pos (fmod (gmstPoly o.jd_ut1) kPi2)) := by
  unfold Blh.calc_gmst gmstPoly kPi180 kJ2k kDayJc
  simp only [kPi_eq]
  norm_num

/-- C13: for every `jd_ut1`, `calc_gmst` returns a value in `[0, 2*pi)` that differs
from `(67310.54841 + (876600*3600 + 8640184.812866 + (0.093104 - 6.2e-6*T)*T)*T)
* (pi/180) / 240`, `T = (jd_ut1 - 2451545)/36525`, by an integer multiple of `2*pi`;
when that quantity is an integer multiple of `2*pi`, the result is 0. -/
theorem calc_gmst_range (o : Blh) :
    0 ≤ o.calc_gmst ∧ o.calc_gmst < 2 * Real.pi
      ∧ (∃ k : Int, o.calc_gmst = gmstPoly o.jd_ut1 + (k : ℝ) * (2 * Real.pi))
      ∧ ((∃ m : Int, gmstPoly o.jd_ut1 = (m : ℝ) * (2 * Real.pi)) → o.calc_gmst = 0) := by
  have hp := kPi2_pos
  obtain ⟨f0, f1, f2, f3, f4⟩ := fmod_spec (gmstPoly o.jd_ut1) kPi2 hp
  rw [calc_gmst_eq]
  generalize hX : gmstPoly o.jd_ut1 = X at *
  by_cases hneg : fmod X kPi2 < 0
  · have e1 := (whileNegAdd_eq kPi2 hp (fmod X kPi2)).2 hneg (le_of_lt f1)
    have e2 := whileGtSub_eq kPi2 hp (fmod X kPi2 + kPi2) (by linarith)
    rw [e1, e2]
    refine ⟨by linarith, by rw [← kPi2_eq]; linarith, ?_, ?_⟩
    · refine ⟨-truncReal (X / kPi2) + 1, ?_⟩
      rw [f0, ← kPi2_eq]
      push_cast
      ring
    · rintro ⟨m, hm⟩
      exfalso
      have hq : X / kPi2 = (m : ℝ) := by
        rw [hm, ← kPi2_eq]
        field_simp
      have ht : truncReal (X / kPi2) = m := by
        rw [hq]
        unfold truncReal
        split <;> simp
      rw [f0, ht, hm, ← kPi2_eq] at hneg
      linarith
  · push_neg at hneg
    have e1 := (whileNegAdd_eq kPi2 hp (fmod X kPi2)).1 hneg
    have e2 := whileGtSub_eq kPi2 hp (fmod X kPi2) (le_of_lt f2)
    rw [e1, e2]
    refine ⟨hneg, by rw [← kPi2_eq]; exact f2, ?_, ?_⟩
    · refine ⟨-truncReal (X / kPi2), ?_⟩
      rw [f0, ← kPi2_eq]
      push_cast
      ring
    · rintro ⟨m, hm⟩
      have hq : X / kPi2 = (m : ℝ) := by
        rw [hm, ← kPi2_eq]
        field_simp
      have ht : truncReal (X / kPi2) = m := by
        rw [hq]
        unfold truncReal
        split <;> simp
      rw [f0, ht, hm, ← kPi2_eq]
      ring

/-- C19: `apply_kinematic` applies the kinematic terms only when
`jd_ut1 > 2450449.5`: for `jd_ut1 <= 2450449.5` and `gmst` in `[0, 2*pi)` it returns
`gmst`; for `jd_ut1 > 2450449.5` it returns
`fmod(gmst + 0.00264*(pi/648000)*sin(Omega) + 0.000063*(pi/648000)*sin(2*Omega), 2*pi)`;
and 2450449.5 is the value `gc2jd` returns for the calendar fields
1997-01-01 00:00:00 with `tv_nsec = 0`. -/
theorem apply_kinematic_cases :
    (∀ (o : Blh) (gmst om : ℝ), o.jd_ut1 ≤ 2450449.5 → 0 ≤ gmst → gmst < 2 * Real.pi →
        o.apply_kinematic gmst om = gmst)
      ∧ (∀ (o : Blh) (gmst om : ℝ), o.jd_ut1 > 2450449.5 →
        o.apply_kinematic gmst om
          = fmod (gmst + 0.00264 * (Real.pi / 648000) * Real.sin om
              + 0.000063 * (Real.pi / 648000) * Real.sin (2 * om)) (2 * Real.pi))
      ∧ (∀ (localtime_r : Int → Tm) (ts : Timespec),
        localtime_r ts.tv_sec = ⟨97, 0, 1, 0, 0, 0⟩ → ts.tv_nsec = 0 →
        gc2jd localtime_r ts = 2450449.5) := by
  refine ⟨?_, ?_, ?_⟩
  · intro o gmst om hjd h0 h1
    unfold Blh.apply_kinematic
    simp only []
    rw [if_neg (not_lt.mpr hjd), kPi2_eq]
    apply fmod_of_abs_lt
    rw [abs_lt]
    constructor <;> linarith [Real.pi_pos]
  · intro o gmst om hjd
    unfold Blh.apply_kinematic
    simp only []
    rw [if_pos hjd, kPi2_eq, kPi_eq, mul_comm om 2]
    congr 1
    ring
  · intro localtime_r ts ht hn
    have e : (⟨97, 0, 1, 0, 0, 0⟩ : Tm)
        = ⟨((1997 : Nat) : Int) - 1900, ((1 : Nat) : Int) - 1, (1 : Nat), (0 : Nat),
            (0 : Nat), (0 : Nat)⟩ := by norm_num
    unfold gc2jd
    rw [ht, hn, e, gc2jd_tm_eq 1997 1 1 0 0 0 (by decide) (by decide) (by decide)
      (by decide) (by decide) (by decide)]
    have g : gcDays (1997 - 1) (1 + 12) = 729360 := by decide
    rw [if_pos (by decide), g]
    norm_num

/-- Witness of C19: the instant 852076800 s broken down as 1997-01-01 00:00:00, and
`gmst = 1` at `jd_ut1 = 2450449.5`. -/
theorem apply_kinematic_cases_witness :
    gc2jd (fun _ => ⟨97, 0, 1, 0, 0, 0⟩) ⟨852076800, 0⟩ = 2450449.5
      ∧ Blh.apply_kinematic ⟨0, 0, 0, 2450449.5, 0⟩ 1 0 = 1 :=
  ⟨apply_kinematic_cases.2.2 (fun _ => ⟨97, 0, 1, 0, 0, 0⟩) ⟨852076800, 0⟩ rfl rfl,
    apply_kinematic_cases.1 ⟨0, 0, 0, 2450449.5, 0⟩ 1 0 (le_refl _) (by norm_num)
      (by linarith [Real.pi_gt_three])⟩

/-- Squared length of the result of `apply_mtx` with the polar motion matrix. -/
theorem apply_mtx_rpm_norm (o : Blh) (v : Coord) :
    (Blh.apply_mtx o.gen_mtx_rpm v).x ^ 2 + (Blh.apply_mtx o.gen_mtx_rpm v).y ^ 2
        + (Blh.apply_mtx o.gen_mtx_rpm v).z ^ 2
      = v.x ^ 2 + v.y ^ 2 + v.z ^ 2 := by
  obtain ⟨sa, ca, sb, cb, sc, cc, ha, hb, hc, e00, e01, e02, e10, e11, e12, e20, e21, e22⟩ :=
    rpm_entries o
  unfold Blh.apply_mtx
  simp only [e00, e01, e02, e10, e11, e12, e20, e21, e22]
  obtain ⟨x, y, z⟩ := v
  simp only []
  linear_combination
    (x ^ 2 * cc ^ 2 + y ^ 2 * sc ^ 2 + z ^ 2 + 2 * x * y * cc * sc) * ha
    + (x ^ 2 * (sc ^ 2 + sa ^ 2 * cc ^ 2) + y ^ 2 * (cc ^ 2 + sa ^ 2 * sc ^ 2)
        + z ^ 2 * ca ^ 2 - 2 * x * y * cc * sc * (1 - sa ^ 2) - 2 * x * z * ca * cc * sa
        - 2 * y * z * ca * sc * sa) * hb
    + (x ^ 2 + y ^ 2) * hc

/-- Squared length and third component of the result of `apply_mtx` with the sidereal
matrix. -/
theorem apply_mtx_rz_norm (g : ℝ) (r : Coord) :
    (Blh.apply_mtx (Blh.gen_mtx_rz g) r).x ^ 2 + (Blh.apply_mtx (Blh.gen_mtx_rz g) r).y ^ 2
        + (Blh.apply_mtx (Blh.gen_mtx_rz g) r).z ^ 2
      = r.x ^ 2 + r.y ^ 2 + r.z ^ 2
    ∧ (Blh.apply_mtx (Blh.gen_mtx_rz g) r).z = r.z := by
  obtain ⟨e00, e01, e02, e10, e11, e12, e20, e21, e22⟩ := rz_entries g
  have hsc := Real.sin_sq_add_cos_sq g
  unfold Blh.apply_mtx
  simp only [e00, e01, e02, e10, e11, e12, e20, e21, e22]
  constructor
  · linear_combination (r.x ^ 2 + r.y ^ 2) * hsc
  · ring

/-- C20: the chain TEME -> PEF -> ECEF keeps the length: for every angle, every object
and every position `r`, `r_ecef = apply_mtx(gen_mtx_rpm(), apply_mtx(gen_mtx_rz(g), r))`
has the squared length of `r`, and `r_pef = apply_mtx(gen_mtx_rz(g), r)` has the `z`
of `r`. -/
theorem teme_pef_ecef_length (g : ℝ) (o : Blh) (r : Coord) :
    (Blh.apply_mtx o.gen_mtx_rpm (Blh.apply_mtx (Blh.gen_mtx_rz g) r)).x ^ 2
        + (Blh.apply_mtx o.gen_mtx_rpm (Blh.apply_mtx (Blh.gen_mtx_rz g) r)).y ^ 2
        + (Blh.apply_mtx o.gen_mtx_rpm (Blh.apply_mtx (Blh.gen_mtx_rz g) r)).z ^ 2
      = r.x ^ 2 + r.y ^ 2 + r.z ^ 2
    ∧ (Blh.apply_mtx (Blh.gen_mtx_rz g) r).z = r.z := by
  rw [apply_mtx_rpm_norm]
  exact apply_mtx_rz_norm g r

/-! ## days2ymdhms -/

theorem lmonth_length (year : Nat) : (lmonth year).length = 12 := by
  simp [lmonth]

theorem lmonth_sum (year : Nat) :
    (lmonth year).sum = if year % 4 = 0 then 366 else 365 := by
  unfold lmonth
  split <;> simp

/-- Invariant of the search loop: started at index `i` with `inttemp` the sum of the
first `i` lengths, below a day number `n` that the table covers, the loop stops at the
index `j` whose month holds day `n`, without reading outside the table. -/
theorem days2ymdhms_loop_spec (lm : List Nat) (hlen : lm.length = 12) (n : Nat)
    (hn : n ≤ lm.sum) :
    ∀ k i, i + k = 11 → (lm.take i).sum < n →
      ∃ j, j ≤ 11 ∧ days2ymdhms_loop lm n i (lm.take i).sum = some (j, (lm.take j).sum)
        ∧ (lm.take j).sum < n ∧ n ≤ (lm.take j).sum + lm.getD j 0 := by
  intro k
  induction k with
  | zero =>
    intro i hi hlt
    have hi11 : i = 11 := by omega
    subst hi11
    have hsome : lm[11]? = some lm[11] := List.getElem?_eq_getElem (by omega)
    have hsum : (lm.take 11).sum + lm[11] = lm.sum := by
      have := List.sum_take_succ lm 11 (by omega)
      rw [← this, List.take_of_length_le (by omega)]
    refine ⟨11, le_refl _, ?_, hlt, ?_⟩
    · rw [days2ymdhms_loop]
      split
      · rename_i h; rw [hsome] at h; cases h
      · rename_i l h
        rw [hsome] at h
        cases h
        rw [if_neg (by omega)]
    · rw [List.getD_eq_getElem _ _ (by omega)]
      omega
  | succ k ih =>
    intro i hi hlt
    have hil : i < lm.length := by omega
    have hsome : lm[i]? = some lm[i] := List.getElem?_eq_getElem hil
    have hsum := List.sum_take_succ lm i hil
    by_cases hc : n > (lm.take i).sum + lm[i]
    · obtain ⟨j, hj, hloop, h1, h2⟩ := ih (i + 1) (by omega) (by omega)
      refine ⟨j, hj, ?_, h1, h2⟩
      rw [days2ymdhms_loop]
      split
      · rename_i h; rw [hsome] at h; cases h
      · rename_i l h
        rw [hsome] at h
        cases h
        rw [if_pos ⟨hc, by omega⟩, ← hsum]
        exact hloop
    · refine ⟨i, by omega, ?_, hlt, ?_⟩
      · rw [days2ymdhms_loop]
        split
        · rename_i h; rw [hsome] at h; cases h
        · rename_i l h
          rw [hsome] at h
          cases h
          rw [if_neg (by omega)]
      · rw [List.getD_eq_getElem _ _ hil]
        omega

/-- What `days2ymdhms` returns for a day number `n` inside the year: it reads the table
inside its bounds, returns the year, a month in 1..12, and the day `n` minus the
lengths of the months before. -/
theorem days2ymdhms_spec (year : Nat) (days : ℚ) (n : Nat)
    (hint : truncToInt days = (n : Int))
    (hn : 1 ≤ n ∧ n ≤ (if year % 4 = 0 then 366 else 365)) :
    ∃ dt, days2ymdhms year days = some dt ∧ dt.year = year
      ∧ 1 ≤ dt.month ∧ dt.month ≤ 12
      ∧ 1 ≤ dt.day ∧ dt.day ≤ (lmonth year).getD (dt.month - 1) 0
      ∧ ((lmonth year).take (dt.month - 1)).sum + dt.day = n := by
  have hday : toUInt32 (truncToInt days) = n := by
    rw [hint]
    apply toUInt32_natCast
    have := hn.2
    split at this <;> omega
  obtain ⟨j, hj, hloop, h1, h2⟩ :=
    days2ymdhms_loop_spec (lmonth year) (lmonth_length year) n
      (by rw [lmonth_sum]; exact hn.2) 11 0 (by omega) (by simp; omega)
  simp only [List.take_zero, List.sum_nil] at hloop
  have hn366 : n ≤ 366 := by
    have := hn.2
    split at this <;> omega
  have hm : toUInt32 ((j : Int) + 1) = j + 1 := by unfold toUInt32; omega
  have hd : toUInt32 ((n : Int) - (((lmonth year).take j).sum : Int))
      = n - ((lmonth year).take j).sum := by unfold toUInt32; omega
  unfold days2ymdhms
  simp only [hday, hloop, hm, hd]
  refine ⟨_, rfl, rfl, ?_, ?_, ?_, ?_, ?_⟩ <;> simp only [Nat.add_sub_cancel] <;> omega

/-- C11: `days2ymdhms` decides the length of February by `year % 4 == 0` alone: for
`int(days) = 60` it returns month 2, day 29 when the year is divisible by 4 and month 3,
day 1 when it is not. -/
theorem days2ymdhms_february_rule (year : Nat) (days : ℚ) (h60 : truncToInt days = 60) :
    (year % 4 = 0 → ∃ dt, days2ymdhms year days = some dt ∧ dt.month = 2 ∧ dt.day = 29)
      ∧ (year % 4 ≠ 0 → ∃ dt, days2ymdhms year days = some dt ∧ dt.month = 3 ∧ dt.day = 1) := by
  have key : ∀ y : Nat, ∃ dt, days2ymdhms y days = some dt
      ∧ 1 ≤ dt.month ∧ dt.month ≤ 12
      ∧ 1 ≤ dt.day ∧ dt.day ≤ (lmonth y).getD (dt.month - 1) 0
      ∧ ((lmonth y).take (dt.month - 1)).sum + dt.day = 60 := by
    intro y
    obtain ⟨dt, h0, _, h1, h2, h3, h4, h5⟩ :=
      days2ymdhms_spec y days 60 h60 ⟨by omega, by split <;> omega⟩
    exact ⟨dt, h0, h1, h2, h3, h4, h5⟩
  obtain ⟨dt, h0, h1, h2, h3, h4, h5⟩ := key year
  constructor
  · intro hy
    refine ⟨dt, h0, ?_⟩
    generalize dt.month = m at h1 h2 h4 h5 ⊢
    generalize dt.day = d at h3 h4 h5 ⊢
    interval_cases m <;> simp [lmonth, hy] at h4 h5 <;> omega
  · intro hy
    refine ⟨dt, h0, ?_⟩
    generalize dt.month = m at h1 h2 h4 h5 ⊢
    generalize dt.day = d at h3 h4 h5 ⊢
    interval_cases m <;> simp [lmonth, hy] at h4 h5 <;> omega

/-- Witness of C11: day 60.75 of the year 1900, which is divisible by 4 and not a
Gregorian leap year, is February 29. -/
theorem days2ymdhms_february_rule_witness :
    ∃ dt, days2ymdhms 1900 60.75 = some dt ∧ dt.month = 2 ∧ dt.day = 29 :=
  (days2ymdhms_february_rule 1900 60.75
    (by norm_num [truncToInt, Int.floor_eq_iff])).1 (by decide)

/-- C12: `days2ymdhms` inverts the day of the year: when the integer part `n` of `days`
satisfies `1 <= n <= L` (`L = 366` when `year % 4 == 0`, else 365), the result has a
month in 1..12, a day between 1 and the length of that month in the table adjusted for
the year, and the lengths of the months before plus the day give `n`. -/
theorem days2ymdhms_inverts_day_of_year (year : Nat) (days : ℚ) (n : Nat)
    (hint : truncToInt days = (n : Int))
    (hn : 1 ≤ n ∧ n ≤ (if year % 4 = 0 then 366 else 365)) :
    ∃ dt, days2ymdhms year days = some dt
      ∧ 1 ≤ dt.month ∧ dt.month ≤ 12
      ∧ 1 ≤ dt.day ∧ dt.day ≤ (lmonth year).getD (dt.month - 1) 0
      ∧ ((lmonth year).take (dt.month - 1)).sum + dt.day = n := by
  obtain ⟨dt, h0, _, h1, h2, h3, h4, h5⟩ := days2ymdhms_spec year days n hint hn
  exact ⟨dt, h0, h1, h2, h3, h4, h5⟩

/-- Witness of C12: day 161.5 of 2021 is June 10, and 31+28+31+30+31 + 10 = 161. -/
theorem days2ymdhms_inverts_day_of_year_witness :
    ∃ dt, days2ymdhms 2021 161.5 = some dt
      ∧ 1 ≤ dt.month ∧ dt.month ≤ 12
      ∧ 1 ≤ dt.day ∧ dt.day ≤ (lmonth 2021).getD (dt.month - 1) 0
      ∧ ((lmonth 2021).take (dt.month - 1)).sum + dt.day = 161 :=
  days2ymdhms_inverts_day_of_year 2021 161.5 161
    (by norm_num [truncToInt, Int.floor_eq_iff]) (by decide)

/-! ## getline and the lookup in the table of Earth orientation parameters -/

/-- The stream after `getline` has read the line `l` in front of the lines `rest`. -/
theorem getline_cons (l : List Char) (rest : List (List Char)) (fn : Bool) (str : List Char) :
    getline ⟨l :: rest, fn, true⟩ str
      = (true, ⟨rest, fn, if rest = [] then fn else true⟩, l) := by
  unfold getline
  cases rest <;> simp

/-- With no line left `getline` fails; it leaves `str` alone when the stream is not
good and erases it otherwise. -/
theorem getline_nil (fn g : Bool) (str : List Char) :
    getline ⟨[], fn, g⟩ str = (false, ⟨[], fn, false⟩, if g then [] else str) := by
  unfold getline
  cases g <;> simp

theorem find_eop_line_nil (key : List Char) (fn g : Bool) (eop : List Char) :
    find_eop_line key ⟨[], fn, g⟩ eop = some (if g then [] else eop) := by
  unfold find_eop_line
  split
  · rename_i h
    rw [getline_nil] at h
    simp only [Prod.mk.injEq, true_and] at h
    rw [h.2]
  · rename_i h
    rw [getline_nil] at h
    simp at h

theorem find_eop_line_cons (key l : List Char) (rest : List (List Char)) (fn : Bool)
    (eop : List Char) :
    find_eop_line key ⟨l :: rest, fn, true⟩ eop
      = if l.take 10 = key then some l
        else find_eop_line key ⟨rest, fn, if rest = [] then fn else true⟩ l := by
  rw [find_eop_line]
  split
  · rename_i h
    rw [getline_cons] at h
    simp at h
  · rename_i ifs1 eop1 h
    rw [getline_cons] at h
    simp only [Prod.mk.injEq, true_and] at h
    obtain ⟨h1, h2⟩ := h
    subst h1 h2
    simp [substr]

/-- What the loop of `get_eop` and `get_dut1` leaves in `eop`, started on a freshly
opened file: the first line that begins with the key when there is one; otherwise the
empty string when the last line ends with a newline, and the last line of the file when
it does not. -/
theorem find_eop_line_spec (key : List Char) (fn : Bool) (L : List (List Char)) :
    ∀ eop, find_eop_line key ⟨L, fn, true⟩ eop
      = some (match L.find? (fun l => l.take 10 = key) with
          | some l => l
          | none => if fn then [] else L.getLastD []) := by
  induction L with
  | nil =>
    intro eop
    rw [find_eop_line_nil]
    simp
  | cons l rest ih =>
    intro eop
    rw [find_eop_line_cons]
    by_cases hm : l.take 10 = key
    · simp [hm]
    · rw [if_neg hm]
      cases rest with
      | nil =>
        simp only [if_true, find_eop_line_nil]
        simp [hm]
      | cons l2 rest2 =>
        have := ih l
        simp only [List.cons_ne_nil, if_false, reduceCtorEq] at this ⊢
        rw [this]
        simp [hm]

/-- The date key of `get_eop` and `get_dut1`: the first ten characters of the time
string. -/
theorem substr_gen_time_str (localtime_r : Int → Tm) (ts : Timespec) :
    substr (gen_time_str localtime_r ts) 0 10
      = some ((gen_time_str localtime_r ts).take 10) := by
  simp [substr]

/-- The method `get_eop` in terms of the lines of the file. -/
theorem get_eop_spec (localtime_r : Int → Tm) (f : TextFile) (utc : Timespec) :
    Eop.get_eop localtime_r (some f) utc
      = some (match f.lines.find?
            (fun l => l.take 10 = (gen_time_str localtime_r utc).take 10) with
          | some l => l
          | none => if f.final_newline then [] else f.lines.getLastD []) := by
  unfold Eop.get_eop IfStream.ofFile
  rw [substr_gen_time_str]
  simp only [Option.bind_eq_bind, Option.some_bind]
  exact find_eop_line_spec _ _ _ _

/-- The positive part of the lookup: when a line begins with the key, `get_eop`
returns the first such line, and `get_dut1` reads DUT1 from it; when no line begins
with the key and the last line ends with a newline, `get_eop` returns the empty string,
and the constructor of `Eop` and `get_dut1` fail. -/
theorem eop_lookup_exact (localtime_r : Int → Tm) (stod : List Char → Option ℚ)
    (f : TextFile) (utc : Timespec) :
    (∀ l, f.lines.find? (fun l => l.take 10 = (gen_time_str localtime_r utc).take 10)
          = some l →
        Eop.get_eop localtime_r (some f) utc = some l
          ∧ get_dut1 localtime_r stod (some f) utc = (substr l 62 10).bind stod)
    ∧ (f.lines.find? (fun l => l.take 10 = (gen_time_str localtime_r utc).take 10) = none →
        f.final_newline = true →
        Eop.get_eop localtime_r (some f) utc = some []
          ∧ Eop.ctor localtime_r stod (some f) utc = none
          ∧ get_dut1 localtime_r stod (some f) utc = none) := by
  have hd : get_dut1 localtime_r stod (some f) utc
      = (Eop.get_eop localtime_r (some f) utc).bind (fun eop => (substr eop 62 10).bind stod) := by
    unfold get_dut1 Eop.get_eop
    simp only [Option.bind_eq_bind, Option.bind_assoc]
  constructor
  · intro l hl
    have hg : Eop.get_eop localtime_r (some f) utc = some l := by
      rw [get_eop_spec, hl]
    refine ⟨hg, ?_⟩
    rw [hd, hg]
    rfl
  · intro hnone hfn
    have hg : Eop.get_eop localtime_r (some f) utc = some [] := by
      rw [get_eop_spec, hnone, hfn]
      rfl
    refine ⟨hg, ?_, ?_⟩
    · unfold Eop.ctor
      rw [hg]
      simp [substr]
    · rw [hd, hg]
      simp [substr]

/-- When no line begins with the key and the last line of the file has no newline,
`get_eop` returns the last line of the file. -/
theorem get_eop_no_final_newline (localtime_r : Int → Tm) (f : TextFile) (utc : Timespec)
    (hnone : f.lines.find? (fun l => l.take 10 = (gen_time_str localtime_r utc).take 10)
      = none)
    (hfn : f.final_newline = false) :
    Eop.get_eop localtime_r (some f) utc = some (f.lines.getLastD []) := by
  rw [get_eop_spec, hnone, hfn]
  rfl

/-- C17, on the code: the table holds the single record of 2021-06-09 and its last
line has no newline; the query date is 2021-06-10. No line begins with the key, yet
`get_eop` returns the record of 2021-06-09, the constructor of `Eop` succeeds with
the fields of that record whenever `stod` reads them, and `get_dut1` returns its
DUT1: after the last line is read the stream is at the end of the file, and the
failing `getline` leaves the line in `eop`. -/
theorem eop_lookup_takes_last_record :
    (gen_time_str (fun _ => ⟨121, 5, 10, 0, 0, 0⟩) ⟨1623283200, 0⟩).take 10
        = "2021-06-10".toList
      ∧ [sampleEopRecord].find? (fun l => l.take 10 = "2021-06-10".toList) = none
      ∧ Eop.get_eop (fun _ => ⟨121, 5, 10, 0, 0, 0⟩)
          (some { lines := [sampleEopRecord], final_newline := false }) ⟨1623283200, 0⟩
          = some sampleEopRecord
      ∧ (∀ stod : List Char → Option ℚ,
          get_dut1 (fun _ => ⟨121, 5, 10, 0, 0, 0⟩) stod
            (some { lines := [sampleEopRecord], final_newline := false }) ⟨1623283200, 0⟩
            = stod "-0.1234567".toList)
      ∧ (∀ (stod : List Char → Option ℚ) (x y d l : ℚ),
          stod " 0.123456".toList = some x → stod " 0.456789".toList = some y →
          stod "-0.1234567".toList = some d → stod "0.00015".toList = some l →
          Eop.ctor (fun _ => ⟨121, 5, 10, 0, 0, 0⟩) stod
            (some { lines := [sampleEopRecord], final_newline := false }) ⟨1623283200, 0⟩
            = some { eop := sampleEopRecord, pm_x := x, pm_y := y, dut1 := d, lod := l }) := by
  have hkey : (gen_time_str (fun _ => ⟨121, 5, 10, 0, 0, 0⟩) ⟨1623283200, 0⟩).take 10
      = "2021-06-10".toList := by
    unfold gen_time_str
    decide
  have hfind : [sampleEopRecord].find? (fun l => l.take 10 = "2021-06-10".toList) = none := by
    decide
  have hg : Eop.get_eop (fun _ => ⟨121, 5, 10, 0, 0, 0⟩)
      (some { lines := [sampleEopRecord], final_newline := false }) ⟨1623283200, 0⟩
      = some sampleEopRecord := by
    rw [get_eop_no_final_newline _ _ _ (by rw [hkey]; exact hfind) rfl]
    rfl
  refine ⟨hkey, hfind, hg, ?_, ?_⟩
  · intro stod
    have hd : get_dut1 (fun _ => ⟨121, 5, 10, 0, 0, 0⟩) stod
        (some { lines := [sampleEopRecord], final_newline := false }) ⟨1623283200, 0⟩
        = (Eop.get_eop (fun _ => ⟨121, 5, 10, 0, 0, 0⟩)
            (some { lines := [sampleEopRecord], final_newline := false })
            ⟨1623283200, 0⟩).bind (fun eop => (substr eop 62 10).bind stod) := by
      unfold get_dut1 Eop.get_eop
      simp only [Option.bind_eq_bind, Option.bind_assoc]
    rw [hd, hg]
    have : substr sampleEopRecord 62 10 = some "-0.1234567".toList := by decide
    simp only [Option.some_bind, this]
  · intro stod x y d l hx hy hd hl
    have f1 : substr sampleEopRecord 22 9 = some " 0.123456".toList := by decide
    have f2 : substr sampleEopRecord 41 9 = some " 0.456789".toList := by decide
    have f3 : substr sampleEopRecord 62 10 = some "-0.1234567".toList := by decide
    have f4 : substr sampleEopRecord 83 7 = some "0.00015".toList := by decide
    have f5 : "0.00015".toList ≠ List.replicate 7 ' ' := by decide
    unfold Eop.ctor
    rw [hg]
    simp only [Option.bind_eq_bind, Option.some_bind, f1, f2, f3, f4, hx, hy, hd, hl, f5,
      ne_eq, not_false_eq_true, if_true]

/-! ## get_dat -/

theorem strLt_nil_right (a : List Char) : strLt a [] = false := by
  cases a <;> rfl

/-- Comparing with a string of the same length as `d` only looks at `d`. -/
theorem strLt_append_left (d k t : List Char) (h : d.length = k.length) :
    strLt (d ++ t) k = strLt d k := by
  induction d generalizing k with
  | nil =>
    cases k with
    | nil => simp [strLt, strLt_nil_right]
    | cons b bs => simp at h
  | cons a as ih =>
    cases k with
    | nil => simp at h
    | cons b bs =>
      have e := ih bs (by simpa using h)
      rw [List.cons_append]
      simp only [strLt, e]

/-- If `d` is below `k1` and `k2` is not below `k1`, then `d` is below `k2`. -/
theorem strLt_of_lt_of_not_lt (d k1 k2 : List Char)
    (h1 : strLt d k1 = true) (h2 : strLt k2 k1 = false) : strLt d k2 = true := by
  induction d generalizing k1 k2 with
  | nil =>
    cases k1 with
    | nil => simp [strLt] at h1
    | cons b bs =>
      cases k2 with
      | nil => simp [strLt] at h2
      | cons c cs => rfl
  | cons a as ih =>
    cases k1 with
    | nil => simp [strLt] at h1
    | cons b bs =>
      cases k2 with
      | nil => simp [strLt] at h2
      | cons c cs =>
        simp only [strLt] at h1 h2 ⊢
        by_cases hcb : c < b
        · simp [hcb] at h2
        · rw [if_neg hcb] at h2
          by_cases hbc : b < c
          · by_cases hab : a < b
            · rw [if_pos (lt_trans hab hbc)]
            · rw [if_neg hab] at h1
              by_cases hba : b < a
              · simp [hba] at h1
              · have hae : a = b := le_antisymm (not_lt.mp hba) (not_lt.mp hab)
                rw [hae, if_pos hbc]
          · rw [if_neg hbc] at h2
            have hce : c = b := le_antisymm (not_lt.mp hbc) (not_lt.mp hcb)
            subst hce
            by_cases hab : a < c
            · rw [if_pos hab]
            · rw [if_neg hab] at h1 ⊢
              by_cases hba : c < a
              · simp [hba] at h1
              · rw [if_neg hba] at h1 ⊢
                exact ih bs cs h1 h2

theorem gen_time_str_length (localtime_r : Int → Tm) (ts : Timespec) :
    10 ≤ (gen_time_str localtime_r ts).length := by
  unfold gen_time_str putInt
  simp only [List.length_append, List.leftpad_length, List.length_cons, List.length_nil]
  omega

theorem get_dat_loop_nil (q : List Char) (fn g : Bool) (buf ls : List Char) :
    get_dat_loop q ⟨[], fn, g⟩ buf ls = some ls := by
  unfold get_dat_loop
  split
  · rfl
  · rename_i h
    rw [getline_nil] at h
    simp at h

theorem get_dat_loop_cons (q l : List Char) (rest : List (List Char)) (fn : Bool)
    (buf ls : List Char) :
    get_dat_loop q ⟨l :: rest, fn, true⟩ buf ls
      = if get_dat_is_entry l = false then
          get_dat_loop q ⟨rest, fn, if rest = [] then fn else true⟩ l ls
        else
          match get_dat_str_wk l with
          | none => none
          | some str_wk =>
            if strLt q str_wk then some ls
            else get_dat_loop q ⟨rest, fn, if rest = [] then fn else true⟩ l l := by
  rw [get_dat_loop]
  split
  · rename_i h
    rw [getline_cons] at h
    simp at h
  · rename_i ifs1 buf1 h
    rw [getline_cons] at h
    simp only [Prod.mk.injEq, true_and] at h
    obtain ⟨h1, h2⟩ := h
    subst h1 h2
    have hs : substr l 0 1 = some (l.take 1) := by simp [substr]
    simp only [hs, get_dat_is_entry]
    by_cases hc : l.take 1 = ['#']
    · simp [hc]
    · simp [hc]

/-- What the loop of `get_dat` leaves in `ls` on a table whose entries carry dates of
ten characters in ascending order: the last entry whose date is not after the first
ten characters `d` of the query string, or `ls` as it was when there is none. -/
theorem get_dat_loop_spec (d t : List Char) (hd : d.length = 10) (fn : Bool)
    (L : List (List Char))
    (hk : ∀ l ∈ L, get_dat_is_entry l = true →
      (get_dat_str_wk l).map List.length = some 10)
    (hs : (L.filter get_dat_is_entry).Pairwise (fun a b => get_dat_date_le a b = true)) :
    ∀ (g : Bool) (buf ls : List Char), (L ≠ [] → g = true) →
      get_dat_loop (d ++ t) ⟨L, fn, g⟩ buf ls
        = some (((L.filter get_dat_is_entry).filter (get_dat_not_after d)).getLastD ls) := by
  induction L with
  | nil =>
    intro g buf ls _
    rw [get_dat_loop_nil]
    rfl
  | cons l rest ih =>
    intro g buf ls hg
    have hg1 : g = true := hg (by simp)
    subst hg1
    have hk1 : ∀ l1 ∈ rest, get_dat_is_entry l1 = true →
        (get_dat_str_wk l1).map List.length = some 10 :=
      fun l1 h1 => hk l1 (List.mem_cons_of_mem _ h1)
    have hgr : rest ≠ [] → (if rest = [] then fn else true) = true := by
      intro h; rw [if_neg h]
    rw [get_dat_loop_cons]
    by_cases he : get_dat_is_entry l = true
    · obtain ⟨k, hkey, hlen⟩ := Option.map_eq_some'.mp (hk l (List.mem_cons_self _ _) he)
      rw [List.filter_cons_of_pos he] at hs ⊢
      obtain ⟨hhead, htail⟩ := List.pairwise_cons.mp hs
      rw [if_neg (by simp [he])]
      simp only [hkey]
      rw [strLt_append_left d k t (by omega)]
      by_cases hlt : strLt d k = true
      · rw [if_pos hlt]
        have hna : get_dat_not_after d l = false := by
          simp [get_dat_not_after, hkey, hlt]
        have hrest : (rest.filter get_dat_is_entry).filter (get_dat_not_after d) = [] := by
          rw [List.filter_eq_nil_iff]
          intro e hemem
          obtain ⟨ke, hke, _⟩ := Option.map_eq_some'.mp
            (hk1 e (List.mem_of_mem_filter hemem) (List.mem_filter.mp hemem).2)
          have h2 : strLt ke k = false := by
            have := hhead e hemem
            simpa [get_dat_date_le, hke, get_dat_not_after, hkey] using this
          have h3 := strLt_of_lt_of_not_lt d k ke hlt h2
          simp [get_dat_not_after, hke, h3]
        rw [List.filter_cons_of_neg (by simp [hna]), hrest]
        rfl
      · rw [if_neg hlt]
        have hna : get_dat_not_after d l = true := by
          simp [get_dat_not_after, hkey, hlt]
        rw [List.filter_cons_of_pos hna, ih hk1 htail _ l l hgr, List.getLastD_cons]
    · rw [List.filter_cons_of_neg he] at hs ⊢
      rw [if_pos (by simpa using he)]
      exact ih hk1 hs _ l ls hgr

/-- C16: on a table of leap seconds whose entries (the lines that do not begin with
`#`) carry dates `YYYY-MM-DD` of ten characters in ascending order, `get_dat` returns
the count in columns 31-32 of the last entry whose date is not after the date of the
query, the first ten characters of the time string (an entry of the same date is taken),
and fails when there is no such entry. -/
theorem get_dat_last_entry_not_after (localtime_r : Int → Tm) (f : TextFile) (ts : Timespec)
    (hk : ∀ l ∈ f.lines, get_dat_is_entry l = true →
      (get_dat_str_wk l).map List.length = some 10)
    (hs : (f.lines.filter get_dat_is_entry).Pairwise
      (fun a b => get_dat_date_le a b = true)) :
    get_dat localtime_r (some f) ts
      = match ((f.lines.filter get_dat_is_entry).filter
            (get_dat_not_after ((gen_time_str localtime_r ts).take 10))).getLast? with
        | none => none
        | some l => ((substr l 31 2).bind stoi).map (fun v => toUInt32 v) := by
  have hlen := gen_time_str_length localtime_r ts
  have hq : gen_time_str localtime_r ts
      = (gen_time_str localtime_r ts).take 10 ++ (gen_time_str localtime_r ts).drop 10 :=
    (List.take_append_drop 10 _).symm
  have hd : ((gen_time_str localtime_r ts).take 10).length = 10 := by
    rw [List.length_take]; omega
  have hloop := get_dat_loop_spec _ ((gen_time_str localtime_r ts).drop 10) hd
    f.final_newline f.lines hk hs true [] [] (fun _ => rfl)
  rw [← hq] at hloop
  unfold get_dat IfStream.ofFile
  simp only [Option.bind_eq_bind, Option.some_bind, hloop]
  generalize ((f.lines.filter get_dat_is_entry).filter
    (get_dat_not_after ((gen_time_str localtime_r ts).take 10))) = sel
  cases hsel : sel.getLast? with
  | none =>
    have : sel = [] := List.getLast?_eq_none_iff.mp hsel
    subst this
    simp [substr]
  | some l =>
    have : sel.getLastD [] = l := by
      rw [List.getLastD_eq_getLast?, hsel]
      rfl
    rw [this]
    show _ = Option.map (fun v => toUInt32 v) ((substr l 31 2).bind stoi)
    cases (substr l 31 2).bind stoi <;> rfl

/-- Witness of C16: a table with a comment line and the entries of 1972-01-01,
2015-07-01 and 2017-01-01, queried on 2017-01-01 at 00:00:00: the entry of the same
date is taken and the count is 37; and a table that starts on 1972-01-01, queried on
1971-12-31: the call fails. -/
theorem get_dat_last_entry_not_after_witness :
    get_dat (fun _ => ⟨117, 0, 1, 0, 0, 0⟩)
      (some { lines := ["#  MJD       Date        TAI-UTC (s)".toList,
                        "    41317.0    1  1 1972       10".toList,
                        "    57204.0    1  7 2015       36".toList,
                        "    57754.0    1  1 2017       37".toList],
              final_newline := true }) ⟨1483228800, 0⟩ = some 37
      ∧ get_dat (fun _ => ⟨71, 11, 31, 23, 59, 59⟩)
          (some { lines := ["    41317.0    1  1 1972       10".toList],
                  final_newline := true }) ⟨63071999, 0⟩ = none := by
  constructor
  · rw [get_dat_last_entry_not_after _ _ _ (by decide) (by decide)]
    decide
  · rw [get_dat_last_entry_not_after _ _ _ (by decide) (by decide)]
    decide

/-! ## jday and gc2jd in the years 1901 to 2099 -/

/-- C21: for every year in 1901..2099, month in 1..12, and every day, hour, minute and
whole second that fit the fields of a `struct tm`, `jday` returns the value that
`gc2jd` computes from the same calendar fields with `tv_nsec = 0`. -/
theorem jday_eq_gc2jd_1901_2099 (localtime_r : Int → Tm) (ts : Timespec)
    (y m d h mi s : Nat)
    (ht : localtime_r ts.tv_sec
      = ⟨(y : Int) - 1900, (m : Int) - 1, (d : Int), (h : Int), (mi : Int), (s : Int)⟩)
    (hn : ts.tv_nsec = 0)
    (hy : 1901 ≤ y ∧ y ≤ 2099) (hm : 1 ≤ m ∧ m ≤ 12)
    (hd : d < 2147483648) (hh : h < 2147483648) (hmi : mi < 2147483648)
    (hs : s < 2147483648) :
    jday ⟨y, m, d, h, mi, (s : ℚ)⟩ = gc2jd localtime_r ts := by
  unfold gc2jd
  rw [ht, hn, jday_eq y m d h mi s (by omega) hm.2,
    gc2jd_tm_eq y m d h mi s (by omega) hm hd (by omega) (by omega) (by omega)]
  have key := jday_gcDays_agree y m hm (Or.inl (by omega)) (Or.inl (by omega))
  have key2 : (((367 * y + 275 * m / 9 + d : Nat) : Int)
        - ((7 * (y + (m + 9) / 12) / 4 : Nat) : Int) : Int)
      = ((if m < 3 then gcDays (y - 1) (m + 12) + d else gcDays y m + d : Nat) : Int) + 75 := by
    split_ifs at key ⊢ <;> push_cast at key ⊢ <;> omega
  have key3 := congrArg (Int.cast : Int → ℚ) key2
  rw [key3]
  push_cast
  ring

/-- Witness of C21: 1901-01-01 00:00:00, the first day of the range. -/
theorem jday_eq_gc2jd_1901_2099_witness :
    jday ⟨1901, 1, 1, 0, 0, 0⟩
      = gc2jd (fun _ => ⟨1, 0, 1, 0, 0, 0⟩) ⟨-2177452800, 0⟩ := by
  have h := jday_eq_gc2jd_1901_2099 (fun _ => ⟨1, 0, 1, 0, 0, 0⟩)
    ⟨-2177452800, 0⟩ 1901 1 1 0 0 0 (by norm_num) rfl (by decide) (by decide) (by decide)
    (by decide) (by decide) (by decide)
  simpa using h

/-! ## days2ymdhms beyond the end of the year, and the round trip with jday -/

/-- C22, on the code: for the year 2021 and `days = 366.5` the search loop comes to
index 12 with `inttemp = 365`, where its test reads `lmonth[12]`, outside the table of
twelve lengths, so `days2ymdhms` has no defined result; the index at the exit is 12,
which stands for month 13. -/
theorem days2ymdhms_reads_past_table :
    days2ymdhms 2021 366.5 = none
      ∧ days2ymdhms_loop (lmonth 2021) 366 0 0 = days2ymdhms_loop (lmonth 2021) 366 12 365
      ∧ (lmonth 2021)[12]? = none
      ∧ days2ymdhms_loop (lmonth 2021) 366 12 365 = none := by
  have h12 : days2ymdhms_loop (lmonth 2021) 366 12 365 = none := by
    rw [days2ymdhms_loop]
    rfl
  have hrun : days2ymdhms_loop (lmonth 2021) 366 0 0
      = days2ymdhms_loop (lmonth 2021) 366 12 365 := by
    have step : ∀ i t l, (lmonth 2021)[i]? = some l → 366 > t + l → i < 12 →
        days2ymdhms_loop (lmonth 2021) 366 i t
          = days2ymdhms_loop (lmonth 2021) 366 (i + 1) (t + l) := by
      intro i t l hl h1 h2
      rw [days2ymdhms_loop]
      split
      · rename_i h; rw [hl] at h; cases h
      · rename_i l1 h
        rw [hl] at h
        cases h
        rw [if_pos ⟨h1, h2⟩]
    rw [step 0 0 31 rfl (by decide) (by decide), step 1 31 28 rfl (by decide) (by decide),
      step 2 59 31 rfl (by decide) (by decide), step 3 90 30 rfl (by decide) (by decide),
      step 4 120 31 rfl (by decide) (by decide), step 5 151 30 rfl (by decide) (by decide),
      step 6 181 31 rfl (by decide) (by decide), step 7 212 31 rfl (by decide) (by decide),
      step 8 243 30 rfl (by decide) (by decide), step 9 273 31 rfl (by decide) (by decide),
      step 10 304 30 rfl (by decide) (by decide), step 11 334 31 rfl (by decide) (by decide)]
  refine ⟨?_, hrun, rfl, h12⟩
  have hday : toUInt32 (truncToInt (366.5 : ℚ)) = 366 := by
    have : truncToInt (366.5 : ℚ) = 366 := by norm_num [truncToInt, Int.floor_eq_iff]
    rw [this]
    decide
  unfold days2ymdhms
  simp only [hday, hrun, h12]

/-- The fields that `days2ymdhms` returns for a day number `n` inside the year, with the
index `j` at which the search loop stops. -/
theorem days2ymdhms_fields (year : Nat) (days : ℚ) (n : Nat)
    (hint : truncToInt days = (n : Int))
    (hn : 1 ≤ n ∧ n ≤ (if year % 4 = 0 then 366 else 365)) :
    ∃ j, j ≤ 11 ∧ ((lmonth year).take j).sum < n
      ∧ n ≤ ((lmonth year).take j).sum + (lmonth year).getD j 0
      ∧ days2ymdhms year days = some
          { year := year
            month := j + 1
            day := n - ((lmonth year).take j).sum
            hour := toUInt32 (truncToInt ((days - (n : ℚ)) * 24))
            minute := toUInt32 (truncToInt
              (((days - (n : ℚ)) * 24
                - ((toUInt32 (truncToInt ((days - (n : ℚ)) * 24)) : ℕ) : ℚ)) * 60))
            second := (((days - (n : ℚ)) * 24
                - ((toUInt32 (truncToInt ((days - (n : ℚ)) * 24)) : ℕ) : ℚ)) * 60
              - ((toUInt32 (truncToInt
                  (((days - (n : ℚ)) * 24
                    - ((toUInt32 (truncToInt ((days - (n : ℚ)) * 24)) : ℕ) : ℚ)) * 60)) : ℕ)
                  : ℚ)) * 60 } := by
  have hn366 : n ≤ 366 := by
    have := hn.2
    split at this <;> omega
  have hday : toUInt32 (truncToInt days) = n := by
    rw [hint]
    exact toUInt32_natCast n (by omega)
  obtain ⟨j, hj, hloop, h1, h2⟩ :=
    days2ymdhms_loop_spec (lmonth year) (lmonth_length year) n
      (by rw [lmonth_sum]; exact hn.2) 11 0 (by omega) (by simp; omega)
  simp only [List.take_zero, List.sum_nil] at hloop
  have hm : toUInt32 ((j : Int) + 1) = j + 1 := by unfold toUInt32; omega
  have hd : toUInt32 ((n : Int) - (((lmonth year).take j).sum : Int))
      = n - ((lmonth year).take j).sum := by unfold toUInt32; omega
  refine ⟨j, hj, h1, h2, ?_⟩
  unfold days2ymdhms
  simp only [hday, hloop, hm, hd]

/-- The integer day count of `jday` for the date that `days2ymdhms` returns exceeds the
count for day 0 of January by the day number `n`. -/
theorem jday_count_of_day_number (year n j : Nat) (hj : j ≤ 11)
    (h1 : ((lmonth year).take j).sum < n)
    (h2 : n ≤ ((lmonth year).take j).sum + (lmonth year).getD j 0) :
    (((367 * year + 275 * (j + 1) / 9 + (n - ((lmonth year).take j).sum) : Nat) : Int)
        - ((7 * (year + (j + 1 + 9) / 12) / 4 : Nat) : Int) : Int)
      = (((367 * year + 275 * 1 / 9 + 0 : Nat) : Int)
          - ((7 * (year + (1 + 9) / 12) / 4 : Nat) : Int) : Int) + (n : Int) := by
  by_cases hy : year % 4 = 0
  · interval_cases j <;> simp [lmonth, hy] at h1 h2 ⊢ <;> omega
  · have hq : 7 * ((year : Int) + 1) / 4 = 7 * (year : Int) / 4 + 2 := by
      have hr : year % 4 = 1 ∨ year % 4 = 2 ∨ year % 4 = 3 := by omega
      rcases hr with h | h | h <;> omega
    interval_cases j <;> simp [lmonth, hy] at h1 h2 ⊢ <;> omega

/-- C23: for every year in 1901..2099 and every `days` with `1 <= days < L + 1`
(`L = 366` when `year % 4 == 0`, else 365), `days2ymdhms` returns calendar fields whose
Julian Date by `jday` is the Julian Date of day 0 of January of that year plus
`days`. -/
theorem jday_days2ymdhms_round_trip (year : Nat) (days : ℚ)
    (hy : 1901 ≤ year ∧ year ≤ 2099)
    (hd : 1 ≤ days ∧ days < (if year % 4 = 0 then 366 else 365) + 1) :
    ∃ dt, days2ymdhms year days = some dt
      ∧ jday dt = jday ⟨year, 1, 0, 0, 0, 0.0⟩ + days := by
  have hpos : (0 : ℚ) ≤ days := by linarith [hd.1]
  have hfl1 : 1 ≤ ⌊days⌋ := Int.le_floor.mpr (by exact_mod_cast hd.1)
  obtain ⟨n, hn⟩ : ∃ n : Nat, ⌊days⌋ = (n : Int) := ⟨⌊days⌋.toNat, by omega⟩
  have hint : truncToInt days = (n : Int) := by
    unfold truncToInt
    rw [if_pos hpos, hn]
  have hnL : 1 ≤ n ∧ n ≤ (if year % 4 = 0 then 366 else 365) := by
    refine ⟨by omega, ?_⟩
    have hd2 := hd.2
    by_cases h4 : year % 4 = 0
    · rw [if_pos h4] at hd2 ⊢
      have hlt : ⌊days⌋ < (367 : Int) := Int.floor_lt.mpr (by push_cast; linarith)
      omega
    · rw [if_neg h4] at hd2 ⊢
      have hlt : ⌊days⌋ < (366 : Int) := Int.floor_lt.mpr (by push_cast; linarith)
      omega
  obtain ⟨j, hj, h1, h2, hdt⟩ := days2ymdhms_fields year days n hint hnL
  refine ⟨_, hdt, ?_⟩
  rw [jday_eq year (j + 1) _ _ _ _ (by omega) (by omega),
    jday_eq year 1 0 0 0 0.0 (by omega) (by omega)]
  have key := congrArg (Int.cast : Int → ℚ) (jday_count_of_day_number year n j hj h1 h2)
  rw [key]
  push_cast
  ring

/-- Witness of C23: day 161.5 of 2021. -/
theorem jday_days2ymdhms_round_trip_witness :
    ∃ dt, days2ymdhms 2021 161.5 = some dt
      ∧ jday dt = jday ⟨2021, 1, 0, 0, 0, 0.0⟩ + 161.5 :=
  jday_days2ymdhms_round_trip 2021 161.5 (by decide) (by norm_num)

/-! ## Range of the latitude of ecef2blh -/

/-- The range and the sign of `atan2(y, x)` when `x >= 0`. -/
theorem atan2_of_nonneg (y x : ℝ) (hx : 0 ≤ x) :
    -(Real.pi / 2) ≤ atan2 y x ∧ atan2 y x ≤ Real.pi / 2
      ∧ (0 < y → 0 < atan2 y x) ∧ (y < 0 → atan2 y x < 0) ∧ (y = 0 → atan2 y x = 0) := by
  unfold atan2
  have hre : (⟨x, y⟩ : ℂ).re = x := rfl
  have him : (⟨x, y⟩ : ℂ).im = y := rfl
  have habs : |Complex.arg ⟨x, y⟩| ≤ Real.pi / 2 :=
    Complex.abs_arg_le_pi_div_two_iff.mpr (by rw [hre]; exact hx)
  obtain ⟨h1, h2⟩ := abs_le.mp habs
  refine ⟨h1, h2, ?_, ?_, ?_⟩
  · intro hy
    have h0 : 0 ≤ Complex.arg ⟨x, y⟩ := Complex.arg_nonneg_iff.mpr (by rw [him]; exact le_of_lt hy)
    have hne : Complex.arg ⟨x, y⟩ ≠ 0 := by
      intro h
      have := (Complex.arg_eq_zero_iff.mp h).2
      rw [him] at this
      linarith
    exact lt_of_le_of_ne h0 (Ne.symm hne)
  · intro hy
    exact Complex.arg_neg_iff.mpr (by rw [him]; exact hy)
  · intro hy
    exact Complex.arg_eq_zero_iff.mpr ⟨by rw [hre]; exact hx, by rw [him]; exact hy⟩

theorem kE2_kA_cast_pos : (0 : ℝ) < ((kE2 : ℚ) : ℝ) * ((kA : ℚ) : ℝ) := by
  have : (0 : ℚ) < kE2 * kA := by unfold kE2 kA k1F; norm_num
  exact_mod_cast this

/-- The latitude of `ecef2blh` as the code computes it, with the distance from the
axis written as `1000 * sqrt(x^2 + y^2)`. -/
theorem ecef2blh_b (ecef : Coord) :
    (Blh.ecef2blh ecef).b
      = atan2
          (ecef.z * 1.0e3 + ((kEd2 : ℚ) : ℝ) * ((kB : ℚ) : ℝ)
            * Real.sin (atan2 (ecef.z * 1.0e3 * ((kA : ℚ) : ℝ))
                (1000 * Real.sqrt (ecef.x ^ 2 + ecef.y ^ 2) * ((kB : ℚ) : ℝ))) ^ 3)
          (1000 * Real.sqrt (ecef.x ^ 2 + ecef.y ^ 2) - ((kE2 : ℚ) : ℝ) * ((kA : ℚ) : ℝ)
            * Real.cos (atan2 (ecef.z * 1.0e3 * ((kA : ℚ) : ℝ))
                (1000 * Real.sqrt (ecef.x ^ 2 + ecef.y ^ 2) * ((kB : ℚ) : ℝ))) ^ 3)
        / kPi180 := by
  unfold Blh.ecef2blh
  simp only [ecef2blh_p]
  rw [div_mul_cancel₀ _ (ne_of_gt kPi180_pos)]

/-- C24: for every ECEF input whose distance from the axis `p = 1000 * sqrt(x^2 + y^2)`
metres is at least `e^2 * a`, the latitude returned by `ecef2blh` lies in `[-90, 90]`
degrees and has the sign of `z`; for the origin (0, 0, 0), which does not meet that
condition, the latitude returned is 180 degrees. -/
theorem ecef2blh_latitude_range :
    (∀ ecef : Coord,
        ((kE2 : ℚ) : ℝ) * ((kA : ℚ) : ℝ) ≤ 1000 * Real.sqrt (ecef.x ^ 2 + ecef.y ^ 2) →
        (-90 ≤ (Blh.ecef2blh ecef).b ∧ (Blh.ecef2blh ecef).b ≤ 90)
          ∧ (0 < ecef.z → 0 < (Blh.ecef2blh ecef).b)
          ∧ (ecef.z < 0 → (Blh.ecef2blh ecef).b < 0)
          ∧ (ecef.z = 0 → (Blh.ecef2blh ecef).b = 0))
      ∧ (Blh.ecef2blh ⟨0, 0, 0⟩).b = 180 := by
  have hk := kPi180_pos
  have h90 : (90 : ℝ) * kPi180 = Real.pi / 2 := by
    unfold kPi180; rw [kPi_eq]; ring
  constructor
  · intro ecef hp
    have hE := kE2_kA_cast_pos
    have hA : (0 : ℝ) < ((kA : ℚ) : ℝ) := by rw [kA_cast]; norm_num
    have hB := kB_cast_pos
    have hEd := kEd2_cast_pos
    have hppos : 0 < 1000 * Real.sqrt (ecef.x ^ 2 + ecef.y ^ 2) := lt_of_lt_of_le hE hp
    rw [ecef2blh_b]
    generalize 1000 * Real.sqrt (ecef.x ^ 2 + ecef.y ^ 2) = p at hp hppos ⊢
    obtain ⟨t1, t2, t3, t4, t5⟩ :=
      atan2_of_nonneg (ecef.z * 1.0e3 * ((kA : ℚ) : ℝ)) (p * ((kB : ℚ) : ℝ))
        (le_of_lt (mul_pos hppos hB))
    generalize atan2 (ecef.z * 1.0e3 * ((kA : ℚ) : ℝ)) (p * ((kB : ℚ) : ℝ)) = t
      at t1 t2 t3 t4 t5 ⊢
    have hc0 : 0 ≤ Real.cos t := Real.cos_nonneg_of_neg_pi_div_two_le_of_le t1 t2
    have hc1 : Real.cos t ^ 3 ≤ 1 := pow_le_one₀ hc0 (Real.cos_le_one t)
    have hX : 0 ≤ p - ((kE2 : ℚ) : ℝ) * ((kA : ℚ) : ℝ) * Real.cos t ^ 3 := by
      nlinarith
    obtain ⟨b1, b2, b3, b4, b5⟩ :=
      atan2_of_nonneg (ecef.z * 1.0e3 + ((kEd2 : ℚ) : ℝ) * ((kB : ℚ) : ℝ) * Real.sin t ^ 3)
        (p - ((kE2 : ℚ) : ℝ) * ((kA : ℚ) : ℝ) * Real.cos t ^ 3) hX
    have hpi := Real.pi_pos
    refine ⟨⟨?_, ?_⟩, ?_, ?_, ?_⟩
    · rw [le_div_iff₀ hk]; linarith
    · rw [div_le_iff₀ hk]; linarith
    · intro hz
      have hz3 : 0 < ecef.z * 1.0e3 := mul_pos hz (by norm_num)
      have ht : 0 < t := t3 (mul_pos hz3 hA)
      have hs : 0 < Real.sin t := Real.sin_pos_of_pos_of_lt_pi ht (by linarith)
      have hY : 0 < ecef.z * 1.0e3 + ((kEd2 : ℚ) : ℝ) * ((kB : ℚ) : ℝ) * Real.sin t ^ 3 :=
        add_pos hz3 (mul_pos (mul_pos hEd hB) (pow_pos hs 3))
      exact div_pos (b3 hY) hk
    · intro hz
      have hzA : ecef.z * 1.0e3 * ((kA : ℚ) : ℝ) < 0 := by
        have : ecef.z * 1.0e3 < 0 := by linarith
        exact mul_neg_of_neg_of_pos this hA
      have ht : t < 0 := t4 hzA
      have hs : Real.sin t < 0 := Real.sin_neg_of_neg_of_neg_pi_lt ht (by linarith)
      have hs3 : Real.sin t ^ 3 < 0 := by
        have : Real.sin t ^ 3 = Real.sin t * Real.sin t ^ 2 := by ring
        rw [this]
        exact mul_neg_of_neg_of_pos hs (sq_pos_of_neg hs)
      have hY : ecef.z * 1.0e3 + ((kEd2 : ℚ) : ℝ) * ((kB : ℚ) : ℝ) * Real.sin t ^ 3 < 0 := by
        have : ((kEd2 : ℚ) : ℝ) * ((kB : ℚ) : ℝ) * Real.sin t ^ 3 < 0 :=
          mul_neg_of_pos_of_neg (mul_pos hEd hB) hs3
        linarith
      exact div_neg_of_neg_of_pos (b4 hY) hk
    · intro hz
      have ht : t = 0 := t5 (by rw [hz]; ring)
      have hY : ecef.z * 1.0e3 + ((kEd2 : ℚ) : ℝ) * ((kB : ℚ) : ℝ) * Real.sin t ^ 3 = 0 := by
        rw [ht, hz, Real.sin_zero]; ring
      rw [b5 hY, zero_div]
  · rw [ecef2blh_b]
    have hs : Real.sqrt ((0 : ℝ) ^ 2 + 0 ^ 2) = 0 := by norm_num
    simp only [hs, zero_mul, mul_zero]
    have ht : atan2 0 0 = 0 := atan2_zero_of_nonneg 0 (le_refl _)
    rw [ht, Real.sin_zero, Real.cos_zero]
    have hneg : (0 : ℝ) - ((kE2 : ℚ) : ℝ) * ((kA : ℚ) : ℝ) * 1 ^ 3 < 0 := by
      have := kE2_kA_cast_pos
      linarith
    have hY : (0 : ℝ) + ((kEd2 : ℚ) : ℝ) * ((kB : ℚ) : ℝ) * 0 ^ 3 = 0 := by ring
    rw [hY]
    have harg : atan2 0 ((0 : ℝ) - ((kE2 : ℚ) : ℝ) * ((kA : ℚ) : ℝ) * 1 ^ 3) = Real.pi := by
      unfold atan2
      have e : (⟨(0 : ℝ) - ((kE2 : ℚ) : ℝ) * ((kA : ℚ) : ℝ) * 1 ^ 3, 0⟩ : ℂ)
          = (((0 : ℝ) - ((kE2 : ℚ) : ℝ) * ((kA : ℚ) : ℝ) * 1 ^ 3 : ℝ) : ℂ) := rfl
      rw [e, Complex.arg_ofReal_of_neg hneg]
    rw [harg]
    unfold kPi180
    rw [kPi_eq]
    field_simp

/-- Witness of C24: the point (3000, 4000, 5000) km, at 5000 km from the axis, has a
latitude between 0 and 90 degrees. -/
theorem ecef2blh_latitude_range_witness :
    (-90 ≤ (Blh.ecef2blh ⟨3000, 4000, 5000⟩).b ∧ (Blh.ecef2blh ⟨3000, 4000, 5000⟩).b ≤ 90)
      ∧ 0 < (Blh.ecef2blh ⟨3000, 4000, 5000⟩).b := by
  have hs : Real.sqrt ((3000 : ℝ) ^ 2 + 4000 ^ 2) = 5000 := by
    rw [show (3000 : ℝ) ^ 2 + 4000 ^ 2 = 5000 ^ 2 by norm_num]
    exact Real.sqrt_sq (by norm_num)
  have hk : ((kE2 : ℚ) : ℝ) * ((kA : ℚ) : ℝ) ≤ 1000 * 5000 := by
    have hq : kE2 * kA ≤ (5000000 : ℚ) := by unfold kE2 kA k1F; norm_num
    have hr : ((kE2 : ℚ) : ℝ) * ((kA : ℚ) : ℝ) ≤ 5000000 := by exact_mod_cast hq
    linarith
  obtain ⟨h1, h2, _, _⟩ := ecef2blh_latitude_range.1 ⟨3000, 4000, 5000⟩ (by
    show ((kE2 : ℚ) : ℝ) * ((kA : ℚ) : ℝ) ≤ 1000 * Real.sqrt ((3000 : ℝ) ^ 2 + 4000 ^ 2)
    rw [hs]; exact hk)
  exact ⟨h1, h2 (by norm_num)⟩

/-! ## gen_time_str -/

/-- C25, on the code: for `tv_nsec = 999500000` (and for `tv_nsec = 999999999`) the
value written after the decimal point is `round(999.5) = 1000`, four digits, so the
time string is `2021-06-10 00:00:00.1000`, 24 characters long, not a three-digit
millisecond field in a string of 23 characters. -/
theorem gen_time_str_millisecond_overflow :
    gen_time_str (fun _ => ⟨121, 5, 10, 0, 0, 0⟩) ⟨1623283200, 999500000⟩
        = "2021-06-10 00:00:00.1000".toList
      ∧ (gen_time_str (fun _ => ⟨121, 5, 10, 0, 0, 0⟩) ⟨1623283200, 999500000⟩).length = 24
      ∧ gen_time_str (fun _ => ⟨121, 5, 10, 0, 0, 0⟩) ⟨1623283200, 999999999⟩
        = "2021-06-10 00:00:00.1000".toList := by
  have r1 : roundHalfAway (((999500000 : Int) : ℚ) * kEm6) = 1000 := by
    norm_num [roundHalfAway, kEm6, Int.floor_eq_iff]
  have r2 : roundHalfAway (((999999999 : Int) : ℚ) * kEm6) = 1000 := by
    norm_num [roundHalfAway, kEm6, Int.floor_eq_iff]
  have e1 : gen_time_str (fun _ => ⟨121, 5, 10, 0, 0, 0⟩) ⟨1623283200, 999500000⟩
      = "2021-06-10 00:00:00.1000".toList := by
    unfold gen_time_str
    simp only [r1]
    decide
  refine ⟨e1, ?_, ?_⟩
  · rw [e1]
    decide
  · unfold gen_time_str
    simp only [r2]
    decide

end IssSgp4Json
